import Mathlib

/-!
Verification of the r2v-to-plan2scene geometric reconstruction pipeline
(`src/code/src/r2vstk/`).

Modelling conventions, shared by all sections:

* Raw coordinates in the pipeline are integers (`convert_int` in `util.py`
  turns every input field into `int`), and every coordinate ever produced by
  the pipeline is copied from input coordinates or obtained by integer
  floor-division (`//` in `wall_split_utils.py`), so positions are modelled
  as `ℤ × ℤ`.
* Configuration values that Python stores as `float` (tolerance_distance /
  wall_join_margin, straighten cutoff_gradient, false-room threshold,
  max_door_perpendicular_offset) are modelled exactly as a ratio
  `(num, den) : ℤ × ℤ` with `den > 0`; each comparison of the code is
  restated in cross-multiplied integer form, which is algebraically
  equivalent to the real-number comparison the float code approximates.
* `math.sqrt` appears in the code only inside comparisons (of distances or
  of normalized slopes); since `sqrt` is monotone, each such comparison is
  modelled by the equivalent comparison of squares, stated over ℤ.
* Python object identity (used for `Corner`/`Wall`/`Hole` equality, since
  those classes define `__hash__` but not `__eq__`) is modelled by unique
  numeric ids carried in each record.
* Python `dict`s (insertion ordered) are modelled as association lists:
  insertion updates-in-place when the key exists and appends otherwise, and
  deletion of an absent key is an error, exactly like `dict.__delitem__`.
-/

/-- Chebyshev distance `max(|ax-bx|, |ay-by|)`.  This is
`util.manhattan_distance_between` — despite its name and docstring, the
function computes `max(abs(a[0]-b[0]), abs(a[1]-b[1]))`. -/
def manhattanDistanceBetween (a b : ℤ × ℤ) : ℤ :=
  max |a.1 - b.1| |a.2 - b.2|

/-- The true Manhattan (L1) distance, used only to state what the
specification *says* about the merge metric (the code does not compute it). -/
def l1Dist (a b : ℤ × ℤ) : ℤ :=
  |a.1 - b.1| + |a.2 - b.2|

/-- Squared Euclidean distance; `util.sq_distance` returns
`sqrt((ax-bx)^2 + (ay-by)^2)` and is only ever used inside monotone
comparisons, which we state on the squares. -/
def sqDist2 (a b : ℤ × ℤ) : ℤ :=
  (a.1 - b.1) ^ 2 + (a.2 - b.2) ^ 2

/-- An exact stand-in for a `float` configuration value: the rational
`num / den`, with `den > 0` assumed by every theorem that uses one. -/
abbrev RatCfg := ℤ × ℤ

/-- `a < q.num/q.den` for an integer `a`, assuming `q.den > 0`. -/
def intLtRat (a : ℤ) (q : RatCfg) : Bool :=
  decide (a * q.2 < q.1)

/-! ## Wall splitting (`wall_split_utils.py`)

Direct embedding of `find_connections` / `_findConnections` /
`lineRange` / `calcLineDirection` / `pointDistance`.  Lines are endpoint
pairs; `point[direction]` indexing is modelled by `coordAt`. -/

abbrev SPoint := ℤ × ℤ
abbrev SLine := SPoint × SPoint

def coordAt (p : SPoint) (i : ℕ) : ℤ :=
  if i = 0 then p.1 else p.2

/-- `pointDistance` in `wall_split_utils.py`: `max(|dx|, |dy|)`. -/
def pointDistance (a b : SPoint) : ℤ :=
  max |a.1 - b.1| |a.2 - b.2|

/-- `calcLineDirection`: `int(abs(x0 - x1) < abs(y0 - y1))`. -/
def calcLineDirection (l : SLine) : ℕ :=
  if |l.1.1 - l.2.1| < |l.1.2 - l.2.2| then 1 else 0

/-- `lineRange`: `(direction, fixedValue, minValue, maxValue)`;
`fixedValue` uses Python floor division `// 2`. -/
def lineRange (l : SLine) : ℕ × ℤ × ℤ × ℤ :=
  let d := calcLineDirection l
  let fixedValue := (coordAt l.1 (1 - d) + coordAt l.2 (1 - d)).fdiv 2
  let minValue := min (coordAt l.1 d) (coordAt l.2 d)
  let maxValue := max (coordAt l.1 d) (coordAt l.2 d)
  (d, fixedValue, minValue, maxValue)

def endpointOf (l : SLine) (c : ℕ) : SPoint :=
  if c = 0 then l.1 else l.2

/-- The endpoint-proximity double loop of `_findConnections`: the first pair
`(c1, c2)` in order `(0,0), (0,1), (1,0), (1,1)` whose endpoints are within
`gap`, together with the floor-midpoint connection point. -/
def endpointConnection (l1 l2 : SLine) (gap : ℤ) : Option ((ℤ × ℤ) × SPoint) :=
  let pairs : List (ℕ × ℕ) := [(0, 0), (0, 1), (1, 0), (1, 1)]
  (pairs.find? fun pr =>
      pointDistance (endpointOf l1 pr.1) (endpointOf l2 pr.2) ≤ gap).map
    fun pr =>
      ((pr.1, pr.2),
        ((endpointOf l1 pr.1).1 + (endpointOf l2 pr.2).1).fdiv 2,
        ((endpointOf l1 pr.1).2 + (endpointOf l2 pr.2).2).fdiv 2)

/-- `_findConnections(line_1, line_2, gap)`; the connection flags are returned
as a pair instead of a 2-element Python list. -/
def findConnectionsAux (l1 l2 : SLine) (gap : ℤ) : (ℤ × ℤ) × SPoint :=
  match endpointConnection l1 l2 gap with
  | some (pr, p) => (pr, p)
  | none =>
    let r1 := lineRange l1
    let r2 := lineRange l2
    let f1 := r1.2.1
    let min1 := r1.2.2.1
    let max1 := r1.2.2.2
    let f2 := r2.2.1
    let min2 := r2.2.2.1
    let max2 := r2.2.2.2
    if r1.1 = r2.1 then ((-1, -1), (0, 0))
    else if min f1 max2 < max f1 min2 - gap ∨ min f2 max1 < max f2 min1 - gap then
      ((-1, -1), (0, 0))
    else if |min1 - f2| ≤ gap then ((0, 2), (f2, f1))
    else if |max1 - f2| ≤ gap then ((1, 2), (f2, f1))
    else if |min2 - f1| ≤ gap then ((2, 0), (f2, f1))
    else if |max2 - f1| ≤ gap then ((2, 1), (f2, f1))
    else ((2, 2), (f2, f1))

/-- `find_connections(l1, l2, gap)`.  Note: exactly as in the source, the
`gap` argument is accepted but **not used** — both recursive calls pass the
literal `gap=5`. -/
def find_connections (l1 l2 : SLine) (gap : ℤ) : (ℤ × ℤ) × SPoint :=
  if l1.1.1 = l1.2.1 then
    let rp := findConnectionsAux l2 l1 5
    ((rp.1.2, rp.1.1), rp.2)
  else
    findConnectionsAux l1 l2 5

/-! ## The wall linkage graph (`floorplan.py`)

`Corner` objects are modelled as records carrying a unique id (`cid`, the
object identity), the mutable `pos`, and the adjacency list `adj` of wall
ids.  `Wall` objects carry a unique id (`wid`), references to their two
`Corner`s by id, the `holes` list and the two room-type labels.  The
`WallLinkageGraph` owns the corner dictionary `wall_corners` (an
insertion-ordered map from the position-derived string key `"x_y"`,
modelled as the position pair itself, to a Corner), the corner arena, the
wall list and the tolerance. -/

structure HoleRec where
  hid : ℕ
  min_x : ℤ
  max_x : ℤ
  htype : Option String
  deriving DecidableEq, Repr

structure CornerRec where
  cid : ℕ
  pos : ℤ × ℤ
  adj : List ℕ
  deriving DecidableEq, Repr

structure WallRec where
  wid : ℕ
  c1 : ℕ
  c2 : ℕ
  holes : List HoleRec
  leftRT : Option String
  rightRT : Option String
  deriving DecidableEq, Repr

structure Graph where
  dict : List ((ℤ × ℤ) × ℕ)
  corners : List CornerRec
  walls : List WallRec
  nextCid : ℕ
  nextWid : ℕ
  tol : RatCfg
  deriving DecidableEq, Repr

def emptyWallGraph (tol : RatCfg) : Graph :=
  ⟨[], [], [], 0, 0, tol⟩

def getCorner (g : Graph) (cid : ℕ) : Option CornerRec :=
  g.corners.find? (fun c => c.cid = cid)

/-- Position of a corner, with a junk default for dangling ids (a dangling
id cannot arise from Python object references; see the module comment). -/
def posOfD (g : Graph) (cid : ℕ) : ℤ × ℤ :=
  ((getCorner g cid).map (fun c => c.pos)).getD (0, 0)

/-- Python `dict` insertion: update in place if the key exists, else append
(insertion order). -/
def dictInsert (d : List ((ℤ × ℤ) × ℕ)) (k : ℤ × ℤ) (v : ℕ) :
    List ((ℤ × ℤ) × ℕ) :=
  if d.any (fun e => e.1 = k) then
    d.map (fun e => if e.1 = k then (k, v) else e)
  else
    d ++ [(k, v)]

/-- The `(distance, node)` tuples built by `util.find_closest` over
`wall_corners.values()` in dictionary order, keeping only entries with
`distance < cutoff_distance` (the `exclude` list is always empty at the one
call site, `add_wall`). -/
def distList (g : Graph) (target : ℤ × ℤ) : List (ℤ × ℕ) :=
  g.dict.filterMap fun e =>
    (getCorner g e.2).bind fun c =>
      let d := manhattanDistanceBetween c.pos target
      if intLtRat d g.tol then some (d, c.cid) else none

/-- The first two entries of Python's stable `sorted(..., key=distance)`:
a left-to-right fold keeping the earliest minimum and the earliest second
minimum (strict-`<` updates reproduce the stable sort exactly). -/
def selectStep (acc : Option (ℤ × ℕ) × Option (ℤ × ℕ)) (x : ℤ × ℕ) :
    Option (ℤ × ℕ) × Option (ℤ × ℕ) :=
  match acc with
  | (none, _) => (some x, none)
  | (some b, none) =>
    if x.1 < b.1 then (some x, some b) else (some b, some x)
  | (some b, some s) =>
    if x.1 < b.1 then (some x, some b)
    else if x.1 < s.1 then (some b, some x)
    else (some b, some s)

def selectTwo (l : List (ℤ × ℕ)) : Option (ℤ × ℕ) × Option (ℤ × ℕ) :=
  l.foldl selectStep (none, none)

/-- `util.find_closest`: the closest and second-closest corner ids within
the cutoff, in stable distance order. -/
def findClosest (g : Graph) (target : ℤ × ℤ) : Option ℕ × Option ℕ :=
  let st := selectTwo (distList g target)
  (st.1.map (fun e => e.2), st.2.map (fun e => e.2))

/-- Create a fresh `Corner` at `p` and register it in `wall_corners` under
the key `str(p[0]) + "_" + str(p[1])` (the position itself). -/
def freshCorner (g : Graph) (p : ℤ × ℤ) : Graph × ℕ :=
  let c : CornerRec := ⟨g.nextCid, p, []⟩
  ({ g with
      corners := g.corners ++ [c]
      dict := dictInsert g.dict p g.nextCid
      nextCid := g.nextCid + 1 },
    g.nextCid)

def appendAdj (cs : List CornerRec) (cid wid : ℕ) : List CornerRec :=
  cs.map fun c => if c.cid = cid then { c with adj := c.adj ++ [wid] } else c

/-- Endpoint resolution: reuse the corner found by `find_closest`, or
create a fresh `Corner` at the raw point when none was found (`add_wall`
does this before the tie-break and again after it for a reassigned
endpoint). -/
def resolveOpt (g : Graph) (p : ℤ × ℤ) : Option ℕ → Graph × ℕ
  | none => freshCorner g p
  | some n => (g, n)

/-- The same-corner tie-break of `add_wall`: when both endpoints resolved
to the same corner `n1 = n2`, keep the corner for the endpoint it is
(strictly) closer to and hand the other endpoint the second-closest
candidate (which may be absent). -/
def tieBreak (gB : Graph) (p1 p2 : ℤ × ℤ) (n1 n2 : ℕ) (b1 b2 : Option ℕ) :
    Option ℕ × Option ℕ :=
  if n1 = n2 then
    if manhattanDistanceBetween (posOfD gB n1) p1 <
        manhattanDistanceBetween (posOfD gB n1) p2 then
      (some n1, b2)
    else (b1, some n2)
  else (some n1, some n2)

/-- `WallLinkageGraph.add_wall(p1, p2, left_room_type, right_room_type)`.

The `assert not (n1.pos == n2.pos)` failure is modelled as
`Except.error`.  As in the source: the degenerate case `p1 == p2` returns
with only a log message; the lookup for `p2` runs on the dictionary that
already contains a corner freshly created for `p1`; and the same-corner
tie-break reassigns the endpoint *farther* from the shared corner to the
second-closest candidate, creating a fresh corner if none exists. -/
def add_wall (g0 : Graph) (p1 p2 : ℤ × ℤ) (leftRT rightRT : Option String) :
    Except String Graph :=
  if p1 = p2 then .ok g0
  else
    let r1 := findClosest g0 p1
    let gn1 := resolveOpt g0 p1 r1.1
    let r2 := findClosest gn1.1 p2
    let gn2 := resolveOpt gn1.1 p2 r2.1
    let tb := tieBreak gn2.1 p1 p2 gn1.2 gn2.2 r1.2 r2.2
    let gm1 := resolveOpt gn2.1 p1 tb.1
    let gm2 := resolveOpt gm1.1 p2 tb.2
    if posOfD gm2.1 gm1.2 = posOfD gm2.1 gm2.2 then
      .error "degenerate wall assertion"
    else
      let w : WallRec := ⟨gm2.1.nextWid, gm1.2, gm2.2, [], leftRT, rightRT⟩
      .ok { gm2.1 with
              walls := gm2.1.walls ++ [w]
              corners := appendAdj (appendAdj gm2.1.corners gm1.2 w.wid) gm2.2 w.wid
              nextWid := gm2.1.nextWid + 1 }

/-- Corner identities and positions survive a graph transformation (used to
transport `add_wall` resolution facts across fresh-corner creation and
adjacency registration). -/
def KeepCP (g g2 : Graph) : Prop :=
  ∀ c ∈ g.corners, ∃ c2 ∈ g2.corners, c2.cid = c.cid ∧ c2.pos = c.pos

/-! ## Wall straightening (`House.straighten_walls`)

The normalized-slope test of the source is
`0 < abs(p1[i] - p2[i]) / sq_distance(p1, p2) < cutoff_gradient`.
With `d = (dx, dy)` and cutoff `gn/gd` (`gn, gd > 0` for a meaningful
configuration) this is equivalent over the reals to
`d_i ≠ 0 ∧ 0 < gn ∧ d_i^2 * gd^2 < gn^2 * (dx^2 + dy^2)`
(square both sides of `|d_i| * gd < gn * sqrt(dx^2+dy^2)`; the extra
`0 < gn` conjunct keeps the squared form equivalent when the configured
cutoff is non-positive).  When `p1 == p2`, the Python division raises
`ZeroDivisionError`; the scan models that as a step error. -/

structure RoomRec where
  key : List ℕ
  wallsOrd : List ℕ
  deriving DecidableEq, Repr

structure HouseSt where
  graph : Graph
  rooms : List RoomRec
  fileName : String
  deriving DecidableEq, Repr

inductive StepErr where
  | zeroDivision
  | keyError
  deriving DecidableEq, Repr

/-- `StraightenWallsFailed(house_path, iter_count)` (`exceptions.py`); the
`from e` cause chain is not modelled. -/
structure SWFail where
  housePath : String
  iterCount : ℕ
  deriving DecidableEq, Repr

/-- The x-axis slope test (see the section comment for the derivation). -/
def xCondB (grad : RatCfg) (p1 p2 : ℤ × ℤ) : Bool :=
  p1.1 - p2.1 ≠ 0 ∧ 0 < grad.1 ∧
    (p1.1 - p2.1) ^ 2 * grad.2 ^ 2 < grad.1 ^ 2 * sqDist2 p1 p2

/-- The y-axis slope test. -/
def yCondB (grad : RatCfg) (p1 p2 : ℤ × ℤ) : Bool :=
  p1.2 - p2.2 ≠ 0 ∧ 0 < grad.1 ∧
    (p1.2 - p2.2) ^ 2 * grad.2 ^ 2 < grad.1 ^ 2 * sqDist2 p1 p2

/-- The scan `for wall in self.wall_graph.walls: ...` looking for the first
nearly-axis-aligned wall; a degenerate wall raises `ZeroDivisionError`
before any later wall is examined. -/
def findInclined (grad : RatCfg) (g : Graph) :
    List WallRec → Except StepErr (Option WallRec)
  | [] => .ok none
  | w :: ws =>
    let p1 := posOfD g w.c1
    let p2 := posOfD g w.c2
    if p1 = p2 then .error .zeroDivision
    else if xCondB grad p1 p2 ∨ yCondB grad p1 p2 then .ok (some w)
    else findInclined grad g ws

/-- `del wall_corners[key]`: a `KeyError` if the key is absent. -/
def dictDelete (d : List ((ℤ × ℤ) × ℕ)) (k : ℤ × ℤ) :
    Except StepErr (List ((ℤ × ℤ) × ℕ)) :=
  if d.any (fun e => e.1 = k) then .ok (d.filter (fun e => e.1 ≠ k))
  else .error .keyError

def setPos (cs : List CornerRec) (cid : ℕ) (p : ℤ × ℤ) : List CornerRec :=
  cs.map fun c => if c.cid = cid then { c with pos := p } else c

/-- Move corner `cid` (old position `oldPos`) to `newPos` and re-key it in
`wall_corners`: delete the old position-derived key, then insert the corner
under its new key. -/
def moveAndRekey (g : Graph) (cid : ℕ) (oldPos newPos : ℤ × ℤ) :
    Except StepErr Graph :=
  match dictDelete g.dict oldPos with
  | .error e => .error e
  | .ok d =>
    .ok { g with
            corners := setPos g.corners cid newPos
            dict := dictInsert d newPos cid }

/-- One iteration of the `while` body of `straighten_walls`:
`ok none` means no offending wall was found (the loop breaks),
`ok (some g)` is a completed correction, `error` is any exception inside
the `try` block.  For an x-axis correction the source moves the endpoint
with the *smaller* y (`if p1.y < p2.y: move p1 else move p2`, "move the
top vertex" in image coordinates); for a y-axis correction, the endpoint
with the smaller x. -/
def straightenStep (grad : RatCfg) (g : Graph) :
    Except StepErr (Option Graph) :=
  match findInclined grad g g.walls with
  | .error e => .error e
  | .ok none => .ok none
  | .ok (some w) =>
    let p1 := posOfD g w.c1
    let p2 := posOfD g w.c2
    if xCondB grad p1 p2 then
      if p1.2 < p2.2 then
        (moveAndRekey g w.c1 p1 (p2.1, p1.2)).map some
      else
        (moveAndRekey g w.c2 p2 (p1.1, p2.2)).map some
    else
      if p1.1 < p2.1 then
        (moveAndRekey g w.c1 p1 (p1.1, p2.2)).map some
      else
        (moveAndRekey g w.c2 p2 (p2.1, p1.2)).map some

/-- The `while iter_count < max_iter_count` loop.  `fuel` is
`max_iter - iter`; exhausting it logs a warning and returns normally,
a break (no offending wall) returns normally, and any step exception is
wrapped as `StraightenWallsFailed(house_path, iter_count)`. -/
def straightenGo (grad : RatCfg) (file : String) :
    ℕ → ℕ → HouseSt → Except SWFail HouseSt
  | _, 0, h => .ok h
  | iter, fuel + 1, h =>
    match straightenStep grad h.graph with
    | .error _ => .error ⟨file, iter⟩
    | .ok none => .ok h
    | .ok (some g) => straightenGo grad file (iter + 1) fuel { h with graph := g }

/-- `House.straighten_walls` restricted to its geometric core. -/
def straighten_walls (grad : RatCfg) (maxIter : ℕ) (h : HouseSt) :
    Except SWFail HouseSt :=
  straightenGo grad h.fileName 0 maxIter h

/-- `n` consecutive *successful, progressing* straightening corrections. -/
def iterSteps (grad : RatCfg) : ℕ → Graph → Option Graph
  | 0, g => some g
  | n + 1, g =>
    match straightenStep grad g with
    | .ok (some g2) => iterSteps grad n g2
    | _ => none

/-! ## Room polylines and false-room elimination (`util.get_polyline`,
`House._eliminate_false_rooms`)

For this read-only stage a wall is a pair of corner objects, each modelled
as `(identity, position)`; `w.p1 == points[-1]` is Python object identity.

Polygon geometry is delegated by the source to shapely
(`Polygon(...).area`, `parent.intersection(child)`).  The polygon's own
area is the shoelace formula (which `Polygon.area` computes for the valid
rings produced here); the intersection operation is an external-library
primitive and is modelled as an explicit oracle argument
`oracle parentPoly childPoly`, returning twice the intersection area when
the intersection is a `Polygon` and `0` otherwise (so the source's
`isinstance(intersection, Polygon) and intersection.area > 0` test becomes
`0 < oracle ...`).  All areas are doubled to stay in ℤ. -/

abbrev CPt := ℕ × (ℤ × ℤ)

abbrev PWall := CPt × CPt

/-- The inner `for i, w in enumerate(unvisited_walls)` scan: find the first
wall attached to the current last point (its `p1` checked before its `p2`),
returning the far endpoint and the remaining walls. -/
def findAttach (last : CPt) : List PWall → Option (CPt × List PWall)
  | [] => none
  | w :: ws =>
    if w.1 = last then some (w.2, ws)
    else if w.2 = last then some (w.1, ws)
    else (findAttach last ws).map fun r => (r.1, w :: r.2)

/-- The `while len(unvisited_walls) > 0` loop; `pts` is the points list in
reverse (head = `points[-1]`); fuel is the unvisited count, which strictly
decreases on every non-breaking pass. -/
def getPolyGo : ℕ → List CPt → List PWall → List CPt
  | 0, pts, _ => pts
  | fuel + 1, pts, unvisited =>
    if unvisited.isEmpty then pts
    else
      match findAttach (pts.headD (0, 0, 0)) unvisited with
      | none => pts
      | some (p, rest) => getPolyGo fuel (p :: pts) rest

/-- `util.get_polyline(walls)`: the traversal-ordered positions.  (Python
crashes on an empty wall list; rooms always carry at least one wall.) -/
def get_polyline (ws : List PWall) : List (ℤ × ℤ) :=
  match ws with
  | [] => []
  | w :: rest => ((getPolyGo rest.length [w.2, w.1] rest).reverse).map fun p => p.2

/-- Signed doubled shoelace sum of a point list (closing back to `first`). -/
def shoelaceSum (first : ℤ × ℤ) : List (ℤ × ℤ) → ℤ
  | [] => 0
  | [p] => p.1 * first.2 - first.1 * p.2
  | p :: q :: rest => (p.1 * q.2 - q.1 * p.2) + shoelaceSum first (q :: rest)

/-- Twice `Polygon(poly).area` (shoelace absolute value). -/
def area2 (poly : List (ℤ × ℤ)) : ℤ :=
  match poly with
  | [] => 0
  | p :: _ => |shoelaceSum p poly|

abbrev RoomEntry := ℕ × List PWall

abbrev InterOracle := List (ℤ × ℤ) → List (ℤ × ℤ) → ℤ

/-- The `contained_children` of a parent candidate: every *other* room whose
polyline has ≥ 3 vertices and whose polygon intersection with the parent has
positive area.  Exactly as in the source, the recorded area component is the
**child polygon's own (full) area**, not the intersection area. -/
def containedChildren (oracle : InterOracle) (m : List RoomEntry) (pk : ℕ)
    (ppoly : List (ℤ × ℤ)) : List RoomEntry :=
  m.filter fun ce =>
    decide (ce.1 ≠ pk) && decide (3 ≤ (get_polyline ce.2).length) &&
      decide (0 < oracle ppoly (get_polyline ce.2))

/-- `total_area = sum([a[1] for a in contained_children])` (doubled). -/
def childAreaSum2 (oracle : InterOracle) (m : List RoomEntry) (pk : ℕ)
    (ppoly : List (ℤ × ℤ)) : ℤ :=
  ((containedChildren oracle m pk ppoly).map fun ce =>
      area2 (get_polyline ce.2)).sum

/-- The deletion test of `_eliminate_false_rooms` for one parent candidate:
skip parents with fewer than 3 polyline vertices, else delete when
`|total_area - parent.area| < parent.area * threshold` (cross-multiplied by
the doubled areas and the threshold denominator). -/
def fullyContainedB (oracle : InterOracle) (thr : RatCfg) (m : List RoomEntry)
    (pe : RoomEntry) : Bool :=
  let ppoly := get_polyline pe.2
  if ppoly.length < 3 then false
  else
    |childAreaSum2 oracle m pe.1 ppoly - area2 ppoly| * thr.2 <
      area2 ppoly * thr.1

/-- `House._eliminate_false_rooms`: collect `fully_contained_keys` over the
original map, then delete those keys. -/
def eliminate_false_rooms (oracle : InterOracle) (thr : RatCfg)
    (m : List RoomEntry) : List RoomEntry :=
  let contained := (m.filter (fullyContainedB oracle thr m)).map fun e => e.1
  m.filter fun e => decide (e.1 ∉ contained)

/-- Modelled from the spec's words, for comparison with the code: the sum of
the *intersection* areas of the other rooms whose intersection with the
parent has positive area (doubled). -/
def specIntersectionSum2 (oracle : InterOracle) (m : List RoomEntry) (pk : ℕ)
    (ppoly : List (ℤ × ℤ)) : ℤ :=
  ((m.filter fun ce =>
        decide (ce.1 ≠ pk) && decide (0 < oracle ppoly (get_polyline ce.2))).map
      fun ce => oracle ppoly (get_polyline ce.2)).sum

/-- Modelled from the spec's words: room `pe` should be deleted iff the
summed intersection area is within `threshold` (relative) of its own area. -/
abbrev specDeletesRoom (oracle : InterOracle) (thr : RatCfg) (m : List RoomEntry)
    (pe : RoomEntry) : Prop :=
  |specIntersectionSum2 oracle m pe.1 (get_polyline pe.2) -
        area2 (get_polyline pe.2)| * thr.2 <
    area2 (get_polyline pe.2) * thr.1

/-- Doubled intersection area of the bounding boxes of two point lists; for
the axis-aligned rectangle rooms used in the concrete counterexample this is
exactly what shapely's `parent.intersection(child).area` yields (doubled). -/
def bboxInter2 (p q : List (ℤ × ℤ)) : ℤ :=
  let xs := fun l : List (ℤ × ℤ) => l.map fun a => a.1
  let ys := fun l : List (ℤ × ℤ) => l.map fun a => a.2
  let lo := fun l : List ℤ => l.foldr min 1000000
  let hi := fun l : List ℤ => l.foldr max (-1000000)
  2 * max 0 (min (hi (xs p)) (hi (xs q)) - max (lo (xs p)) (lo (xs q))) *
    max 0 (min (hi (ys p)) (hi (ys q)) - max (lo (ys p)) (lo (ys q)))

/-! ## RDR derivation (`House.compute_rdr`, `House._find_adjacent_rooms`)

A room key is the frozenset of boundary wall objects, modelled as the list
of their wall ids; `wall in room_key` is membership of the wall's id. -/

abbrev RoomKey := List ℕ

abbrev RdrEdge := RoomKey × ℕ × Option RoomKey

/-- `House._find_adjacent_rooms`: the room keys (in map iteration order)
whose wall set contains the wall. -/
def findAdjacentRooms (rooms : List RoomKey) (wid : ℕ) : List RoomKey :=
  rooms.filter fun k => decide (wid ∈ k)

/-- The edges `compute_rdr` appends for one door hole: none for zero
adjacent rooms, a single exterior edge for one, both directed edges for
two, and nothing for three or more (the `if/elif` chain has no final
`else`). -/
def rdrEdgesFor (rooms : List RoomKey) (w : WallRec) (h : HoleRec) :
    List RdrEdge :=
  match findAdjacentRooms rooms w.wid with
  | [] => []
  | [a] => [(a, h.hid, none)]
  | [a, b] => [(a, h.hid, some b), (b, h.hid, some a)]
  | _ => []

def wallRdr (rooms : List RoomKey) (w : WallRec) : List HoleRec → List RdrEdge
  | [] => []
  | h :: hs =>
    (if h.htype = some "door" then rdrEdgesFor rooms w h else []) ++
      wallRdr rooms w hs

/-- `House.compute_rdr`: iterate walls, then each wall's holes. -/
def compute_rdr (rooms : List RoomKey) : List WallRec → List RdrEdge
  | [] => []
  | w :: ws => wallRdr rooms w w.holes ++ compute_rdr rooms ws

/-- All hole ids of a wall list, in iteration order. -/
def allHoleIds : List WallRec → List ℕ
  | [] => []
  | w :: ws => w.holes.map (fun h => h.hid) ++ allHoleIds ws

/-! ## Opening assignment (`House.generate_wall_graph`, door part;
`util.line_contains_check`, `util.get_closest_and_furthest`)

Walls are taken with their corner positions already resolved (this stage
only reads them).  A perpendicular-distance value `pd` is represented by
the exact pair `(pd² numerator, pd² denominator)`:

* non-vertical parent (`|p2.x - p1.x| > 0`): with `dx = p2.x - p1.x`,
  `dy = p2.y - p1.y`, `E(p) = dy*(p1.x - p.x) + dx*(p.y - p1.y)`,
  `get_pd(grad, intercept, p) = |E(p)| / sqrt(dx² + dy²)`, so
  `pd² = E(p)² / (dx² + dy²)`;
* vertical parent: `pd1 = |c1.x - p1.x|`, `pd2 = |c2.x - p2.x|`, so
  `pd² = v² / 1`.

Comparisons of `pd`s (the `> pd_margin` tests, `min(pd1, pd2)` and the
ascending sort) are monotone in `pd²` and are performed by
cross-multiplication; `pd > margin` is additionally true outright when the
configured margin is negative. -/

structure OWall where
  owid : ℕ
  wp1 : ℤ × ℤ
  wp2 : ℤ × ℤ
  oholes : List HoleRec
  deriving DecidableEq, Repr

structure ODoor where
  did : ℕ
  dp1 : ℤ × ℤ
  dp2 : ℤ × ℤ
  deriving DecidableEq, Repr

abbrev PdSq := ℤ × ℤ

def pdLtB (a b : PdSq) : Bool :=
  a.1 * b.2 < b.1 * a.2

def pdLeB (a b : PdSq) : Bool :=
  a.1 * b.2 ≤ b.1 * a.2

/-- `min(pd1, pd2)` (Python `min` returns the first argument on ties). -/
def pdMin (a b : PdSq) : PdSq :=
  if pdLeB a b then a else b

/-- `pd > pd_margin` for `pd` given as a squared ratio. -/
def pdGtMargin (pd : PdSq) (margin : RatCfg) : Bool :=
  if margin.1 < 0 then true
  else pd.1 * margin.2 ^ 2 > margin.1 ^ 2 * pd.2

/-- `util.line_contains_check(parent, child, pd_margin)`: `some pd` models
`(True, min(pd1, pd2))` and `none` models `(False, None)`. -/
def line_contains_check (wp1 wp2 d1 d2 : ℤ × ℤ) (margin : RatCfg) :
    Option PdSq :=
  let pds :=
    if |wp2.1 - wp1.1| > 0 then
      let dx := wp2.1 - wp1.1
      let dy := wp2.2 - wp1.2
      let e := fun p : ℤ × ℤ => dy * (wp1.1 - p.1) + dx * (p.2 - wp1.2)
      ((e d1 ^ 2, dx ^ 2 + dy ^ 2), (e d2 ^ 2, dx ^ 2 + dy ^ 2))
    else
      ((( |d1.1 - wp1.1| ) ^ 2, 1), (( |d2.1 - wp2.1| ) ^ 2, 1))
  if pdGtMargin pds.1 margin then none
  else if pdGtMargin pds.2 margin then none
  else
    let p1c1 := sqDist2 wp1 d1
    let p1c2 := sqDist2 wp1 d2
    let p2c1 := sqDist2 wp2 d1
    let p2c2 := sqDist2 wp2 d2
    if p1c1 < p1c2 ∧ p2c2 < p2c1 then some (pdMin pds.1 pds.2)
    else if p1c2 < p1c1 ∧ p2c1 < p2c2 then some (pdMin pds.1 pds.2)
    else none

/-- `util.get_closest_and_furthest(target, p1, p2)` (`sq_distance` is
monotone in the squared distance). -/
def getClosestAndFurthest (t a b : ℤ × ℤ) : (ℤ × ℤ) × (ℤ × ℤ) :=
  if sqDist2 t a < sqDist2 t b then (a, b) else (b, a)

/-- The `wall_door_pairs` collection loop: `for door in w_doors: for wall in
walls: ...`; each qualifying pair records `(pd, door, wall id)`. -/
def collectPairs (margin : RatCfg) (walls : List OWall) :
    List ODoor → List (PdSq × ODoor × ℕ)
  | [] => []
  | d :: ds =>
    walls.filterMap
        (fun w =>
          (line_contains_check w.wp1 w.wp2 d.dp1 d.dp2 margin).map
            fun pd => (pd, d, w.owid)) ++
      collectPairs margin walls ds

/-- Stable insertion into an ascending list: a new element goes after every
element it does not strictly precede, reproducing Python's stable
`sorted(..., key=lambda x: x[0])`. -/
def sInsPair (x : PdSq × ODoor × ℕ) :
    List (PdSq × ODoor × ℕ) → List (PdSq × ODoor × ℕ)
  | [] => [x]
  | y :: ys => if pdLtB x.1 y.1 then x :: y :: ys else y :: sInsPair x ys

def sortPairs (l : List (PdSq × ODoor × ℕ)) : List (PdSq × ODoor × ℕ) :=
  l.foldl (fun acc x => sInsPair x acc) []

/-- The `Hole` constructed for a door accepted on a wall: wall-local bounds
are the `manhattan_distance_between` (Chebyshev) distances from the wall's
first endpoint to the closest and furthest door endpoints; `hid` models the
`ran.randint` draw of `generate_hole_id`. -/
def mkHole (hid : ℕ) (wp1 a b : ℤ × ℤ) : HoleRec :=
  let cf := getClosestAndFurthest wp1 a b
  ⟨hid, manhattanDistanceBetween wp1 cf.1, manhattanDistanceBetween wp1 cf.2,
    none⟩

/-- The greedy assignment over the sorted pairs; `added` is `added_doors`
(door object identity), `k` counts the `generate_hole_id` draws consumed
from the random stream `rng`. -/
def assignGo (rng : ℕ → ℕ) :
    List (PdSq × ODoor × ℕ) → List OWall → List ℕ → ℕ → List OWall
  | [], ws, _, _ => ws
  | pr :: rest, ws, added, k =>
    if pr.2.1.did ∈ added then assignGo rng rest ws added k
    else
      assignGo rng rest
        (ws.map fun w =>
          if w.owid = pr.2.2 then
            { w with oholes := w.oholes ++ [mkHole (rng k) w.wp1 pr.2.1.dp1 pr.2.1.dp2] }
          else w)
        (added ++ [pr.2.1.did]) (k + 1)

/-- The opening-assignment part of `House.generate_wall_graph`: collect all
`(pd, door, wall)` pairs, sort ascending by `pd` (stable), then greedily
assign each door at most once. -/
def assignOpenings (rng : ℕ → ℕ) (margin : RatCfg) (walls : List OWall)
    (doors : List ODoor) : List OWall :=
  assignGo rng (sortPairs (collectPairs margin walls doors)) walls [] 0

/-- A wall with its holes' generated identifiers erased (used to state
determinism up to the unseeded random stream). -/
def eraseHoleIds (ws : List OWall) :
    List (ℕ × (ℤ × ℤ) × (ℤ × ℤ) × List (ℤ × ℤ × Option String)) :=
  ws.map fun w =>
    (w.owid, w.wp1, w.wp2, w.oholes.map fun h => (h.min_x, h.max_x, h.htype))

/-! ## Face tracing (`util.find_room`, `util._find_next_wall`)

`find_angle(p)` is the counter-clockwise angle of `(p.x, -p.y)` from the
positive x axis (`acos` with sign from `p[1] > 0`), and
`find_angle_between(p1, p2)`, after the `+360` normalizations in
`_find_next_wall`, is the counter-clockwise angle from `flip p1` to
`flip p2` in `[0, 360)` where `flip (x, y) = (x, -y)`.  Selection of the
candidate with the smallest such angle is decided exactly (no
trigonometry) by the sector of the rotated candidate — `0` for angle `0`,
`1` for `(0°, 180°)`, `2` for `180°`, `3` for `(180°, 360°)` — with the
cross product ordering candidates inside an open half-plane sector.  All
angle values arising in the concrete graphs below are exact in floating
point as well (they are multiples of 90° or comparisons of parallel
vectors), so the exact comparator agrees with the `math.acos` code on
them. -/

def flipY (v : ℤ × ℤ) : ℤ × ℤ :=
  (v.1, -v.2)

def crossZ (a b : ℤ × ℤ) : ℤ :=
  a.1 * b.2 - a.2 * b.1

def dotZ (a b : ℤ × ℤ) : ℤ :=
  a.1 * b.1 + a.2 * b.2

/-- Angle sector of `v` measured counter-clockwise from `u` (both already
y-flipped): `0 ↦ 0°`, `1 ↦ (0°,180°)`, `2 ↦ 180°`, `3 ↦ (180°,360°)`. -/
def angleSector (u v : ℤ × ℤ) : ℕ :=
  if 0 < crossZ u v then 1
  else if crossZ u v < 0 then 3
  else if 0 < dotZ u v then 0
  else 2

/-- `angle_between(u, a) < angle_between(u, b)` (angles normalized to
`[0, 360)`), decided exactly; `u`, `a`, `b` are the raw (image-coordinate)
direction vectors of the source. -/
def angleLtB (u a b : ℤ × ℤ) : Bool :=
  let uf := flipY u
  let af := flipY a
  let bf := flipY b
  let sa := angleSector uf af
  let sb := angleSector uf bf
  if sa ≠ sb then sa < sb
  else decide ((sa = 1 ∨ sa = 3) ∧ 0 < crossZ af bf)

def getWall (g : Graph) (wid : ℕ) : Option WallRec :=
  g.walls.find? fun w => w.wid = wid

/-- `in_other = in_wall.p1; if in_other == vertex: in_other = in_wall.p2`. -/
def otherEndCid (w : WallRec) (cid : ℕ) : ℕ :=
  if w.c1 = cid then w.c2 else w.c1

def vsub (a b : ℤ × ℤ) : ℤ × ℤ :=
  (a.1 - b.1, a.2 - b.2)

/-- The stable minimum-angle selection over the candidate walls (Python's
stable `sorted(...)[0]`; first-in-adjacency-order wins ties). -/
def pickMinAngle (inVec : ℤ × ℤ) :
    List (WallRec × (ℤ × ℤ)) → Option (WallRec × (ℤ × ℤ))
  | [] => none
  | c :: cs =>
    match pickMinAngle inVec cs with
    | none => some c
    | some b => if angleLtB inVec b.2 c.2 then some b else some c

/-- `util._find_next_wall(vertex, in_wall)`.  Adjacency ids that do not
resolve (impossible for Python object references) are skipped. -/
def findNextWall (g : Graph) (v : CornerRec) (inW : WallRec) :
    Option WallRec :=
  if v.adj.length = 1 then none
  else
    let inOther := otherEndCid inW v.cid
    let inVec := vsub (posOfD g inOther) v.pos
    let cands :=
      (v.adj.filterMap (getWall g)).filterMap fun w =>
        if w.wid = inW.wid then none
        else some (w, vsub (posOfD g (otherEndCid w v.cid)) v.pos)
    (pickMinAngle inVec cands).map fun c => c.1

/-- The `while iter_count < 500` loop of `find_room`; `acc` is the `walls`
list in reverse (head = last traversed wall, never empty), and the current
corner record is carried alongside. -/
def findRoomGo (g : Graph) (w0 : WallRec) :
    ℕ → List WallRec → CornerRec → List WallRec × CornerRec
  | 0, acc, cur => (acc, cur)
  | fuel + 1, acc, cur =>
    let lastW := acc.headD w0
    match findNextWall g cur lastW with
    | some nw =>
      if nw.wid = w0.wid then (acc, cur)
      else
        let ncid := if nw.c1 = cur.cid then nw.c2 else nw.c1
        findRoomGo g w0 fuel (nw :: acc)
          ((getCorner g ncid).getD ⟨ncid, (0, 0), []⟩)
    | none =>
      let ncid := if lastW.c1 = cur.cid then lastW.c2 else lastW.c1
      findRoomGo g w0 fuel (lastW :: acc)
        ((getCorner g ncid).getD ⟨ncid, (0, 0), []⟩)

/-- `util.find_room(start_node, start_wall)`: the ordered wall list, paired
with the final current corner (the extra component lets closure of the
trace be stated; the source returns just the list). -/
def find_room (g : Graph) (startNode : CornerRec) (startWall : WallRec) :
    List WallRec × CornerRec :=
  let r := findRoomGo g startWall 500 [startWall] startNode
  (r.1.reverse, r.2)

/-! ## Concrete instances used by counterexamples and witnesses -/

/-- Room A: the axis-aligned square `(0,0)-(10,0)-(10,10)-(0,10)`. -/
def roomA : RoomEntry :=
  (0, [((0, (0, 0)), (1, (10, 0))), ((1, (10, 0)), (2, (10, 10))),
       ((2, (10, 10)), (3, (0, 10))), ((3, (0, 10)), (0, (0, 0)))])

/-- Room B: the axis-aligned square `(5,5)-(15,5)-(15,15)-(5,15)`; its
intersection with room A is the 5×5 square, area 25, while its own area is
100 = room A's area. -/
def roomB : RoomEntry :=
  (1, [((4, (5, 5)), (5, (15, 5))), ((5, (15, 5)), (6, (15, 15))),
       ((6, (15, 15)), (7, (5, 15))), ((7, (5, 15)), (4, (5, 5)))])

def roomMapAB : List RoomEntry := [roomA, roomB]

/-- The trap graph for `find_room`: a triangle `S,T,U`, the spur `S–X`, and
at `X` two collinear overlapping walls `X–Y` and `X–Z` (`Y`, `Z` on one ray
from `X`) closed by `Y–Z`.  Every corner has degree ≥ 2.  Starting the
trace at `(X, S–X)`, the tightest-turn rule enters the `Y–Z–X` cycle and
never selects `S–X` again, so the 500-step cap is exceeded. -/
def trapGraph : Graph :=
  { dict := []
    corners :=
      [⟨0, (-10, 0), [0, 4, 6]⟩,  -- S
       ⟨1, (0, 0), [0, 1, 2]⟩,    -- X
       ⟨2, (10, 0), [1, 3]⟩,      -- Y
       ⟨3, (20, 0), [2, 3]⟩,      -- Z
       ⟨4, (-10, 10), [4, 5]⟩,    -- T
       ⟨5, (-20, 0), [5, 6]⟩]     -- U
    walls :=
      [⟨0, 0, 1, [], none, none⟩,  -- S–X
       ⟨1, 1, 2, [], none, none⟩,  -- X–Y
       ⟨2, 1, 3, [], none, none⟩,  -- X–Z
       ⟨3, 2, 3, [], none, none⟩,  -- Y–Z
       ⟨4, 0, 4, [], none, none⟩,  -- S–T
       ⟨5, 4, 5, [], none, none⟩,  -- T–U
       ⟨6, 5, 0, [], none, none⟩]  -- U–S
    nextCid := 6
    nextWid := 7
    tol := (1, 1) }

def trapX : CornerRec := ⟨1, (0, 0), [0, 1, 2]⟩

def trapW0 : WallRec := ⟨0, 0, 1, [], none, none⟩

/-- A plain 4-cycle (unit square scaled by 10) used as the closing witness
graph for `find_room`. -/
def squareGraph : Graph :=
  { dict := []
    corners :=
      [⟨0, (0, 0), [0, 3]⟩, ⟨1, (10, 0), [0, 1]⟩,
       ⟨2, (10, 10), [1, 2]⟩, ⟨3, (0, 10), [2, 3]⟩]
    walls :=
      [⟨0, 0, 1, [], none, none⟩, ⟨1, 1, 2, [], none, none⟩,
       ⟨2, 2, 3, [], none, none⟩, ⟨3, 3, 0, [], none, none⟩]
    nextCid := 4
    nextWid := 4
    tol := (1, 1) }

def squareC0 : CornerRec := ⟨0, (0, 0), [0, 3]⟩

def squareW0 : WallRec := ⟨0, 0, 1, [], none, none⟩

/-- Decidable equality for `Except` results (not provided by core). -/
instance {ε α : Type} [DecidableEq ε] [DecidableEq α] :
    DecidableEq (Except ε α) := fun a b =>
  match a, b with
  | .ok x, .ok y =>
    if h : x = y then isTrue (by rw [h])
    else isFalse (by intro hc; exact h (Except.ok.inj hc))
  | .error x, .error y =>
    if h : x = y then isTrue (by rw [h])
    else isFalse (by intro hc; exact h (Except.error.inj hc))
  | .ok _, .error _ => isFalse (by intro hc; exact Except.noConfusion hc)
  | .error _, .ok _ => isFalse (by intro hc; exact Except.noConfusion hc)

/-- Every corner id is below the allocation counter (true of every graph the
pipeline builds; fresh corners always take `nextCid`). -/
def cidBound (g : Graph) : Prop :=
  ∀ c ∈ g.corners, c.cid < g.nextCid

/-- A hole has the shape produced by opening assignment on a wall whose
first endpoint is `wp1`: its bounds are the Chebyshev distances from `wp1`
to the Euclidean-closest and -furthest endpoints of some door. -/
def holeShapeOk (wp1 : ℤ × ℤ) (doors : List ODoor) (h : HoleRec) : Prop :=
  ∃ d ∈ doors,
    h.min_x =
        manhattanDistanceBetween wp1 (getClosestAndFurthest wp1 d.dp1 d.dp2).1 ∧
      h.max_x =
        manhattanDistanceBetween wp1 (getClosestAndFurthest wp1 d.dp1 d.dp2).2

/-- A near-vertical wall (slope 1/100 from vertical): corner 0 at `(0,0)`
(the smaller y) and corner 1 at `(1,100)`. -/
def c4Graph : Graph :=
  { dict := [((0, 0), 0), ((1, 100), 1)]
    corners := [⟨0, (0, 0), [0]⟩, ⟨1, (1, 100), [0]⟩]
    walls := [⟨0, 0, 1, [], none, none⟩]
    nextCid := 2
    nextWid := 1
    tol := (1, 1) }

/-- A near-vertical wall whose *first* endpoint has the greater y, so the
x-axis correction moves the second endpoint. -/
def c4bGraph : Graph :=
  { dict := [((1, 100), 0), ((0, 0), 1)]
    corners := [⟨0, (1, 100), [0]⟩, ⟨1, (0, 0), [0]⟩]
    walls := [⟨0, 0, 1, [], none, none⟩]
    nextCid := 2
    nextWid := 1
    tol := (1, 1) }

/-- A near-horizontal wall whose first endpoint has the smaller x, so the
y-axis correction moves the first endpoint. -/
def c4cGraph : Graph :=
  { dict := [((0, 2), 0), ((100, 1), 1)]
    corners := [⟨0, (0, 2), [0]⟩, ⟨1, (100, 1), [0]⟩]
    walls := [⟨0, 0, 1, [], none, none⟩]
    nextCid := 2
    nextWid := 1
    tol := (1, 1) }

/-- A near-horizontal wall whose first endpoint has the greater x, so the
y-axis correction moves the second endpoint. -/
def c4dGraph : Graph :=
  { dict := [((100, 1), 0), ((0, 2), 1)]
    corners := [⟨0, (100, 1), [0]⟩, ⟨1, (0, 2), [0]⟩]
    walls := [⟨0, 0, 1, [], none, none⟩]
    nextCid := 2
    nextWid := 1
    tol := (1, 1) }

/-- The same inclined wall but with an *empty* corner dictionary, so the
re-keying `del wall_corners[key]` raises `KeyError` inside the correction
step. -/
def c5House : HouseSt :=
  { graph :=
      { dict := []
        corners := [⟨0, (0, 0), [0]⟩, ⟨1, (1, 100), [0]⟩]
        walls := [⟨0, 0, 1, [], none, none⟩]
        nextCid := 2
        nextWid := 1
        tol := (1, 1) }
    rooms := []
    fileName := "f" }

/-- A house whose single wall is exactly axis-aligned, with a room holding
that wall: the straightener finds nothing to correct. -/
def c10House : HouseSt :=
  { graph :=
      { dict := [((0, 0), 0), ((10, 0), 1)]
        corners := [⟨0, (0, 0), [0]⟩, ⟨1, (10, 0), [0]⟩]
        walls := [⟨0, 0, 1, [⟨9, 2, 4, some "door"⟩], some "kitchen", none⟩]
        nextCid := 2
        nextWid := 1
        tol := (1, 1) }
    rooms := [⟨[0], [0]⟩]
    fileName := "g" }

/-- The graph built by a single `add_wall((0,0),(10,0))` call on an empty
graph with tolerance 3: two fresh corners and one wall. -/
def oneWallGraph : Graph :=
  { dict := [((0, 0), 0), ((10, 0), 1)]
    corners := [⟨0, (0, 0), [0]⟩, ⟨1, (10, 0), [0]⟩]
    walls := [⟨0, 0, 1, [], none, none⟩]
    nextCid := 2
    nextWid := 1
    tol := (3, 1) }

/-! # Theorems -/

/-- C3 (supporting theorem for the code bug): `find_connections` ignores its
`gap` argument entirely — for the horizontal wall `(0,5)-(20,5)` and the
vertical wall `(10,8)-(10,30)` it reports the T-junction connection
`([2, 0], (10, 5))` (which makes `split_source_walls` split the first wall)
for *every* configured junction gap, even `gap = 0`, although the free
endpoint `(10,8)` is at distance 3 from the junction point: both internal
calls pass the hard-coded literal `gap=5` instead of the parameter. -/
theorem c3_find_connections_ignores_gap :
    (∀ gap : ℤ,
        find_connections ((0, 5), (20, 5)) ((10, 8), (10, 30)) gap =
          ((2, 0), (10, 5))) ∧
      pointDistance (10, 8) (10, 5) = 3 :=
  ⟨fun _ => rfl, rfl⟩

/-- C1 counterexample: with threshold 1/10, room A (the unit 10×10 square)
is deleted by `_eliminate_false_rooms` — the recorded child quantity is room
B's *full* area (100, equal to A's) — although the sum of the *intersection*
areas (25) differs from A's area by far more than `threshold * area(A)`, so
the claim's "if and only if" fails in the "only if" direction. -/
theorem c1_counterexample :
    (eliminate_false_rooms bboxInter2 (1, 10) roomMapAB).map (fun e => e.1) =
        [] ∧
      roomA ∈ roomMapAB ∧
      ¬ specDeletesRoom bboxInter2 (1, 10) roomMapAB roomA := by
  decide

/-- C1 amended: a room `e` of the map is deleted by
`_eliminate_false_rooms` iff its polyline has at least 3 vertices and the
sum of the **full polygon areas** of the other rooms (with ≥ 3-vertex
polylines) whose polygon intersection with `e` has positive area is within
`threshold` (relative) of `e`'s own area.  (Areas are doubled; the
threshold comparison is cross-multiplied by its denominator.) -/
theorem c1_amended (oracle : InterOracle) (thr : RatCfg) (m : List RoomEntry)
    (e : RoomEntry) (hnd : (m.map (fun x => x.1)).Nodup) (he : e ∈ m) :
    e ∉ eliminate_false_rooms oracle thr m ↔
      (3 ≤ (get_polyline e.2).length ∧
        |childAreaSum2 oracle m e.1 (get_polyline e.2) -
              area2 (get_polyline e.2)| * thr.2 <
          area2 (get_polyline e.2) * thr.1) := by
  have hstep : e ∉ eliminate_false_rooms oracle thr m ↔
      fullyContainedB oracle thr m e = true := by
    simp only [eliminate_false_rooms, List.mem_filter, decide_eq_true_eq]
    constructor
    · intro hno
      by_contra hP
      exact hno ⟨he, fun hmem => by
        rcases List.mem_map.mp hmem with ⟨x, hxf, hx1⟩
        rcases List.mem_filter.mp hxf with ⟨hxm, hxP⟩
        have hxe : x = e := List.inj_on_of_nodup_map hnd hxm he hx1
        exact hP (hxe ▸ hxP)⟩
    · intro hP ⟨_, hnotin⟩
      exact hnotin (List.mem_map.mpr ⟨e, List.mem_filter.mpr ⟨he, hP⟩, rfl⟩)
  rw [hstep]
  by_cases hlen : (get_polyline e.2).length < 3
  · simp only [fullyContainedB, if_pos hlen]
    constructor
    · intro h; exact absurd h (by simp)
    · intro ⟨h3, _⟩; omega
  · simp only [fullyContainedB, if_neg hlen, decide_eq_true_eq]
    constructor
    · intro h; exact ⟨by omega, h⟩
    · intro ⟨_, h⟩; exact h

/-- C1 witness: the concrete deletion of room A, obtained by applying the
amended theorem at the two-room map. -/
theorem c1_amended_witness :
    roomA ∉ eliminate_false_rooms bboxInter2 (1, 10) roomMapAB :=
  (c1_amended bboxInter2 (1, 10) roomMapAB roomA (by decide) (by decide)).mpr
    (by decide)

/-- C8 counterexample: two openings accepted by `line_contains_check` whose
Holes violate the claimed invariant.  (a) On the diagonal wall
`(0,0)-(10,10)` with `max_door_perpendicular_offset = 5`, the opening
`(5,5)-(7,0)` is accepted and produces the Hole `[7, 5]`: the
Euclidean-closest endpoint `(7,0)` has the *larger* Chebyshev distance, so
`min_x = 7 > 5 = max_x`.  (b) On the horizontal wall `(0,0)-(10,0)`, the
opening `(8,0)-(11,0)` is accepted and produces `[8, 11]` with
`max_x = 11 > 10 = wall_length` (`11² > 100 = sqDist2` of the endpoints),
so the interval leaves `[0, wall_length]`. -/
theorem c8_counterexample :
    ((assignOpenings (fun _ => 0) (5, 1) [⟨0, (0, 0), (10, 10), []⟩]
          [⟨0, (5, 5), (7, 0)⟩]).map (fun w => w.oholes) =
        [[⟨0, 7, 5, none⟩]] ∧
      ¬ (7 : ℤ) ≤ 5) ∧
    ((assignOpenings (fun _ => 0) (5, 1) [⟨1, (0, 0), (10, 0), []⟩]
          [⟨0, (8, 0), (11, 0)⟩]).map (fun w => w.oholes) =
        [[⟨0, 8, 11, none⟩]] ∧
      sqDist2 (0, 0) (10, 0) = 100 ∧ (100 : ℤ) < 11 ^ 2) := by
  decide

/-- C9 counterexample: on identical input and configuration, two runs whose
unseeded `Random()` streams differ (`generate_hole_id` draws 5 vs 7)
produce different serialized hole records — the Hole ids differ — so the
pipeline output is *not* identical across runs. -/
theorem c9_counterexample :
    (assignOpenings (fun _ => 5) (5, 1) [⟨1, (0, 0), (10, 0), []⟩]
          [⟨0, (8, 0), (11, 0)⟩]).map (fun w => w.oholes.map fun h => h.hid) =
        [[5]] ∧
      (assignOpenings (fun _ => 7) (5, 1) [⟨1, (0, 0), (10, 0), []⟩]
          [⟨0, (8, 0), (11, 0)⟩]).map (fun w => w.oholes.map fun h => h.hid) =
        [[7]] ∧
      assignOpenings (fun _ => 5) (5, 1) [⟨1, (0, 0), (10, 0), []⟩]
          [⟨0, (8, 0), (11, 0)⟩] ≠
        assignOpenings (fun _ => 7) (5, 1) [⟨1, (0, 0), (10, 0), []⟩]
          [⟨0, (8, 0), (11, 0)⟩] := by
  decide

/-- Helper for C9: the greedy assignment is deterministic modulo the random
stream — two runs over the same pair list from erase-equal wall lists stay
erase-equal. -/
theorem assignGo_erase (rng rng' : ℕ → ℕ) (pairs : List (PdSq × ODoor × ℕ)) :
    ∀ (ws ws' : List OWall) (added : List ℕ) (k k' : ℕ),
      eraseHoleIds ws = eraseHoleIds ws' →
      eraseHoleIds (assignGo rng pairs ws added k) =
        eraseHoleIds (assignGo rng' pairs ws' added k') := by
  induction pairs with
  | nil => intro ws ws' added k k' h; simpa [assignGo] using h
  | cons pr rest ih =>
    intro ws ws' added k k' h
    by_cases hd : pr.2.1.did ∈ added
    · simp only [assignGo, if_pos hd]
      exact ih ws ws' added k k' h
    · simp only [assignGo, if_neg hd]
      refine ih _ _ _ _ _ ?_
      have hmap : ∀ (r : ℕ → ℕ) (kk : ℕ) (l : List OWall),
          eraseHoleIds (l.map fun w =>
            if w.owid = pr.2.2 then
              { w with oholes := w.oholes ++ [mkHole (r kk) w.wp1 pr.2.1.dp1 pr.2.1.dp2] }
            else w) =
          (eraseHoleIds l).map fun t =>
            if t.1 = pr.2.2 then
              (t.1, t.2.1, t.2.2.1, t.2.2.2 ++
                [((mkHole 0 t.2.1 pr.2.1.dp1 pr.2.1.dp2).min_x,
                  (mkHole 0 t.2.1 pr.2.1.dp1 pr.2.1.dp2).max_x, none)])
            else t := by
        intro r kk l
        simp only [eraseHoleIds, List.map_map]
        refine List.map_congr_left ?_
        intro w _
        by_cases hw : w.owid = pr.2.2 <;>
          simp [Function.comp, hw, mkHole]
      rw [hmap rng k ws, hmap rng' k' ws', h]

/-- C9 amended: the geometric pipeline is deterministic *up to generated
identifiers*: with the hole identifiers erased, the opening-assignment
result is the same function of the input for every random stream (room ids
are md5-derived and deterministic; hole and wall ids come from an unseeded
`Random()` and may differ between runs). -/
theorem c9_amended (rng rng' : ℕ → ℕ) (margin : RatCfg) (walls : List OWall)
    (doors : List ODoor) :
    eraseHoleIds (assignOpenings rng margin walls doors) =
      eraseHoleIds (assignOpenings rng' margin walls doors) :=
  assignGo_erase rng rng' (sortPairs (collectPairs margin walls doors))
    walls walls [] 0 0 rfl

/-- Helper: the last element of a reversed list is its head. -/
theorem reverse_getLastD (l : List WallRec) (d : WallRec) :
    l.reverse.getLastD d = l.headD d := by
  cases l with
  | nil => rfl
  | cons a t => simp [List.getLastD_eq_getLast?, List.getLast?_concat]

/-- Helper for C6: every run of the `find_room` loop stays within its fuel,
and any run that returns with fuel to spare did so because the next chosen
wall is the very first wall traversed. -/
theorem findRoomGo_spec (g : Graph) (w0 : WallRec) :
    ∀ (fuel : ℕ) (acc : List WallRec) (cur : CornerRec),
      (findRoomGo g w0 fuel acc cur).1.length ≤ acc.length + fuel ∧
        ((findRoomGo g w0 fuel acc cur).1.length < acc.length + fuel →
          ∃ nw,
            findNextWall g (findRoomGo g w0 fuel acc cur).2
                ((findRoomGo g w0 fuel acc cur).1.headD w0) = some nw ∧
              nw.wid = w0.wid) := by
  intro fuel
  induction fuel with
  | zero => intro acc cur; simp [findRoomGo]
  | succ n ih =>
    intro acc cur
    rcases hnext : findNextWall g cur (acc.headD w0) with _ | nw
    · have hrec := ih (acc.headD w0 :: acc)
        ((getCorner g (if (acc.headD w0).c1 = cur.cid then (acc.headD w0).c2
            else (acc.headD w0).c1)).getD
          ⟨if (acc.headD w0).c1 = cur.cid then (acc.headD w0).c2
            else (acc.headD w0).c1, (0, 0), []⟩)
      simp only [findRoomGo, hnext]
      constructor
      · have := hrec.1
        simp only [List.length_cons] at this
        omega
      · intro hlt
        refine hrec.2 ?_
        simp only [List.length_cons]
        omega
    · by_cases hw : nw.wid = w0.wid
      · simp only [findRoomGo, hnext, if_pos hw]
        refine ⟨by omega, fun _ => ⟨nw, rfl, hw⟩⟩
      · have hrec := ih (nw :: acc)
          ((getCorner g (if nw.c1 = cur.cid then nw.c2 else nw.c1)).getD
            ⟨if nw.c1 = cur.cid then nw.c2 else nw.c1, (0, 0), []⟩)
        simp only [findRoomGo, hnext, if_neg hw]
        constructor
        · have := hrec.1
          simp only [List.length_cons] at this
          omega
        · intro hlt
          refine hrec.2 ?_
          simp only [List.length_cons]
          omega

/-- C6 amended: `find_room` always returns (it never raises): the trace has
at most 501 walls; and whenever it returns before exhausting the 500-step
cap (trace of at most 500 walls) the trace is closed — the wall chosen
after the last listed wall is the first wall traversed.  A trace of 501
walls is the cap-exceeded partial result and may be non-closed; contrary to
the claim, closure within the cap is **not** guaranteed for every graph
without degree-1 corners (see the counterexample). -/
theorem c6_amended (g : Graph) (s : CornerRec) (w : WallRec) :
    (find_room g s w).1.length ≤ 501 ∧
      ((find_room g s w).1.length ≤ 500 →
        ∃ nw,
          findNextWall g (find_room g s w).2
              ((find_room g s w).1.getLastD w) = some nw ∧
            nw.wid = w.wid) := by
  have h := findRoomGo_spec g w 500 [w] s
  constructor
  · simpa [find_room] using h.1
  · intro hle
    have hlt : (findRoomGo g w 500 [w] s).1.length < 501 := by
      have : (find_room g s w).1.length = (findRoomGo g w 500 [w] s).1.length := by
        simp [find_room]
      omega
    obtain ⟨nw, hnw, hwid⟩ := h.2 (by simpa using hlt)
    refine ⟨nw, ?_, hwid⟩
    have hrw : (find_room g s w).1.getLastD w =
        (findRoomGo g w 500 [w] s).1.headD w := by
      simp [find_room, reverse_getLastD]
    rw [hrw]
    simpa [find_room] using hnw

/-- C6 witness: on the 4-wall square the trace closes after 4 walls, and the
amended theorem yields the closing transition back to the start wall. -/
theorem c6_amended_witness :
    ∃ nw,
      findNextWall squareGraph (find_room squareGraph squareC0 squareW0).2
          ((find_room squareGraph squareC0 squareW0).1.getLastD squareW0) =
            some nw ∧
        nw.wid = squareW0.wid :=
  (c6_amended squareGraph squareC0 squareW0).2 (by decide)

set_option maxRecDepth 100000 in
/-- C6 counterexample: a wall graph with **no degree-1 corners** (degrees
are 3,3,2,2,2,2) on which `find_room` exceeds the 500-step cap and returns
a non-closed partial trace of 501 walls: at corner X two collinear
overlapping walls tie at 180° and the tightest-turn rule then cycles
through the triangle X–Y–Z forever, never re-selecting the start wall (the
wall chosen after the last listed wall has id 2, not the start wall's 0).
All angle comparisons involved are exact in floating point too (they
compare parallel or opposite axis-aligned vectors). -/
theorem c6_counterexample :
    (∀ c ∈ trapGraph.corners, c.adj.length ≠ 1) ∧
      trapW0 ∈ trapGraph.walls ∧
      trapX ∈ trapGraph.corners ∧
      trapW0.wid = 0 ∧
      (find_room trapGraph trapX trapW0).1.length = 501 ∧
      (findNextWall trapGraph (find_room trapGraph trapX trapW0).2
            ((find_room trapGraph trapX trapW0).1.getLastD trapW0)).map
          (fun w => w.wid) =
        some 2 := by
  decide

/-- C4 counterexample: for the near-vertical wall with corner 0 at `(0,0)`
and corner 1 at `(1,100)` (slope test satisfied for cutoff 1/10), the
correction step moves corner 0 — the endpoint with the *smaller* y — to
`(1,0)`, and leaves the greater-y endpoint `(1,100)` untouched; the claim
says the endpoint with the strictly greater y coordinate is moved. -/
theorem c4_counterexample :
    straightenStep (1, 10) c4Graph =
      .ok (some
        { dict := [((1, 100), 1), ((1, 0), 0)]
          corners := [⟨0, (1, 0), [0]⟩, ⟨1, (1, 100), [0]⟩]
          walls := [⟨0, 0, 1, [], none, none⟩]
          nextCid := 2
          nextWid := 1
          tol := (1, 1) }) := by
  decide

/-- C4 amended: for the first offending wall `w` found by the scan, the
correction step moves the endpoint with the strictly *smaller* coordinate
on the non-snapped axis — for an x-axis (near-vertical) correction the
endpoint with the smaller y (the "top vertex" in image coordinates), for a
y-axis correction the endpoint with the smaller x (the "left vertex") —
and on ties the *second* endpoint; the moved endpoint's snapped-axis
coordinate is set equal to its partner's, and the moved Corner is re-keyed
in `wall_corners`: the old position-derived key is deleted (a `KeyError`
if absent) and the corner is reinserted under its new position key.  The
four conjuncts cover: x-axis with `p1.y < p2.y` (move `p1`), x-axis with
`p1.y ≥ p2.y` (move `p2`, including ties), y-axis with `p1.x < p2.x`
(move `p1`), y-axis with `p1.x ≥ p2.x` (move `p2`, including ties). -/
theorem c4_amended (grad : RatCfg) (g : Graph) (w : WallRec)
    (hf : findInclined grad g g.walls = .ok (some w)) :
    (xCondB grad (posOfD g w.c1) (posOfD g w.c2) = true →
      (posOfD g w.c1).2 < (posOfD g w.c2).2 →
      straightenStep grad g =
        (dictDelete g.dict (posOfD g w.c1)).map fun d =>
          some
            { g with
                corners := setPos g.corners w.c1
                  ((posOfD g w.c2).1, (posOfD g w.c1).2)
                dict := dictInsert d ((posOfD g w.c2).1, (posOfD g w.c1).2)
                  w.c1 }) ∧
    (xCondB grad (posOfD g w.c1) (posOfD g w.c2) = true →
      ¬ (posOfD g w.c1).2 < (posOfD g w.c2).2 →
      straightenStep grad g =
        (dictDelete g.dict (posOfD g w.c2)).map fun d =>
          some
            { g with
                corners := setPos g.corners w.c2
                  ((posOfD g w.c1).1, (posOfD g w.c2).2)
                dict := dictInsert d ((posOfD g w.c1).1, (posOfD g w.c2).2)
                  w.c2 }) ∧
    (xCondB grad (posOfD g w.c1) (posOfD g w.c2) = false →
      (posOfD g w.c1).1 < (posOfD g w.c2).1 →
      straightenStep grad g =
        (dictDelete g.dict (posOfD g w.c1)).map fun d =>
          some
            { g with
                corners := setPos g.corners w.c1
                  ((posOfD g w.c1).1, (posOfD g w.c2).2)
                dict := dictInsert d ((posOfD g w.c1).1, (posOfD g w.c2).2)
                  w.c1 }) ∧
    (xCondB grad (posOfD g w.c1) (posOfD g w.c2) = false →
      ¬ (posOfD g w.c1).1 < (posOfD g w.c2).1 →
      straightenStep grad g =
        (dictDelete g.dict (posOfD g w.c2)).map fun d =>
          some
            { g with
                corners := setPos g.corners w.c2
                  ((posOfD g w.c2).1, (posOfD g w.c1).2)
                dict := dictInsert d ((posOfD g w.c2).1, (posOfD g w.c1).2)
                  w.c2 }) := by
  refine ⟨?_, ?_, ?_, ?_⟩ <;> intro hx hy <;> simp only [straightenStep, hf]
  · rw [if_pos hx, if_pos hy]
    rcases hdel : dictDelete g.dict (posOfD g w.c1) with e | d <;>
      simp [moveAndRekey, hdel, Except.map]
  · rw [if_pos hx, if_neg hy]
    rcases hdel : dictDelete g.dict (posOfD g w.c2) with e | d <;>
      simp [moveAndRekey, hdel, Except.map]
  · rw [if_neg (by rw [hx]; simp), if_pos hy]
    rcases hdel : dictDelete g.dict (posOfD g w.c1) with e | d <;>
      simp [moveAndRekey, hdel, Except.map]
  · rw [if_neg (by rw [hx]; simp), if_neg hy]
    rcases hdel : dictDelete g.dict (posOfD g w.c2) with e | d <;>
      simp [moveAndRekey, hdel, Except.map]

/-- C4 witness: the four branches of the amended theorem applied to four
concrete inclined walls — near-vertical with the first or second endpoint
on top, and near-horizontal with the first or second endpoint on the
left. -/
theorem c4_amended_witness :
    (straightenStep (1, 10) c4Graph =
      (dictDelete c4Graph.dict (posOfD c4Graph 0)).map fun d =>
        some
          { c4Graph with
              corners := setPos c4Graph.corners 0
                ((posOfD c4Graph 1).1, (posOfD c4Graph 0).2)
              dict := dictInsert d ((posOfD c4Graph 1).1, (posOfD c4Graph 0).2)
                0 }) ∧
    (straightenStep (1, 10) c4bGraph =
      (dictDelete c4bGraph.dict (posOfD c4bGraph 1)).map fun d =>
        some
          { c4bGraph with
              corners := setPos c4bGraph.corners 1
                ((posOfD c4bGraph 0).1, (posOfD c4bGraph 1).2)
              dict := dictInsert d
                ((posOfD c4bGraph 0).1, (posOfD c4bGraph 1).2) 1 }) ∧
    (straightenStep (1, 10) c4cGraph =
      (dictDelete c4cGraph.dict (posOfD c4cGraph 0)).map fun d =>
        some
          { c4cGraph with
              corners := setPos c4cGraph.corners 0
                ((posOfD c4cGraph 0).1, (posOfD c4cGraph 1).2)
              dict := dictInsert d
                ((posOfD c4cGraph 0).1, (posOfD c4cGraph 1).2) 0 }) ∧
    (straightenStep (1, 10) c4dGraph =
      (dictDelete c4dGraph.dict (posOfD c4dGraph 1)).map fun d =>
        some
          { c4dGraph with
              corners := setPos c4dGraph.corners 1
                ((posOfD c4dGraph 1).1, (posOfD c4dGraph 0).2)
              dict := dictInsert d
                ((posOfD c4dGraph 1).1, (posOfD c4dGraph 0).2) 1 }) :=
  ⟨(c4_amended (1, 10) c4Graph ⟨0, 0, 1, [], none, none⟩ (by decide)).1
      (by decide) (by decide),
    (c4_amended (1, 10) c4bGraph ⟨0, 0, 1, [], none, none⟩ (by decide)).2.1
      (by decide) (by decide),
    (c4_amended (1, 10) c4cGraph ⟨0, 0, 1, [], none, none⟩ (by decide)).2.2.1
      (by decide) (by decide),
    (c4_amended (1, 10) c4dGraph ⟨0, 0, 1, [], none, none⟩ (by decide)).2.2.2
      (by decide) (by decide)⟩

/-- Helper for C5: if the straightening loop reports an error, the error
carries the source file path and the exact number of corrections completed
before the failing one, the budget was not yet exhausted, and the state
reached by that many corrections makes the next step fail. -/
theorem straightenGo_error (grad : RatCfg) (file : String) :
    ∀ (fuel iter : ℕ) (hh : HouseSt) (err : SWFail),
      straightenGo grad file iter fuel hh = .error err →
      err.housePath = file ∧
        ∃ k, err.iterCount = iter + k ∧ k < fuel ∧
          ∃ g, iterSteps grad k hh.graph = some g ∧
            ∃ e, straightenStep grad g = .error e := by
  intro fuel
  induction fuel with
  | zero =>
    intro iter hh err h
    exact absurd h (by simp [straightenGo])
  | succ n ih =>
    intro iter hh err h
    rcases hs : straightenStep grad hh.graph with e | og
    · simp only [straightenGo, hs] at h
      have herr : err = ⟨file, iter⟩ := (Except.error.inj h).symm
      subst herr
      exact ⟨rfl, 0, by simp, by omega, hh.graph, rfl, e, hs⟩
    · rcases og with _ | g2
      · simp only [straightenGo, hs] at h
        exact Except.noConfusion h
      · simp only [straightenGo, hs] at h
        obtain ⟨hp, k, hk, hlt, g3, hgs, he⟩ := ih (iter + 1) _ err h
        refine ⟨hp, k + 1, by omega, by omega, g3, ?_, he⟩
        rw [iterSteps, hs]
        exact hgs

/-- C5: whenever `straighten_walls` fails, the failure is the wrapped
`StraightenWallsFailed` value — returned to the caller, not swallowed —
carrying the source file path and the iteration count at which the step
failed: `iterCount` corrections succeeded from the initial state and the
next step raised (and `iterCount` is below the iteration budget). -/
theorem c5_error_propagation (grad : RatCfg) (maxIter : ℕ) (h : HouseSt)
    (err : SWFail) (he : straighten_walls grad maxIter h = .error err) :
    err.housePath = h.fileName ∧ err.iterCount < maxIter ∧
      ∃ g, iterSteps grad err.iterCount h.graph = some g ∧
        ∃ e, straightenStep grad g = .error e := by
  obtain ⟨hp, k, hk, hlt, g, hgs, he2⟩ :=
    straightenGo_error grad h.fileName maxIter 0 h err he
  have hk0 : err.iterCount = k := by omega
  rw [hk0]
  exact ⟨hp, by omega, g, hgs, he2⟩

/-- C5 witness: on `c5House` (an inclined wall whose corner key is missing
from the corner index) the first correction step raises `KeyError`, and the
loop reports `StraightenWallsFailed("f", 0)`. -/
theorem c5_witness :
    (SWFail.mk "f" 0).housePath = c5House.fileName ∧
      (SWFail.mk "f" 0).iterCount < 5 ∧
      ∃ g, iterSteps (1, 10) (SWFail.mk "f" 0).iterCount c5House.graph = some g ∧
        ∃ e, straightenStep (1, 10) g = .error e :=
  c5_error_propagation (1, 10) 5 c5House ⟨"f", 0⟩ (by decide)

/-- Helper for C10: corner repositioning preserves ids and adjacency. -/
theorem setPos_cid_adj (cs : List CornerRec) (cid : ℕ) (p : ℤ × ℤ) :
    (setPos cs cid p).map (fun c => (c.cid, c.adj)) =
      cs.map fun c => (c.cid, c.adj) := by
  simp only [setPos, List.map_map]
  refine List.map_congr_left ?_
  intro c _
  by_cases h : c.cid = cid <;> simp [h]

/-- Helper for C10: one successful correction step changes only corner
positions and the corner index: walls (with their holes, endpoints and room
types), corner ids and adjacency lists, the tolerance, and the id counters
are unchanged. -/
theorem straightenStep_frame (grad : RatCfg) (g g2 : Graph)
    (hs : straightenStep grad g = .ok (some g2)) :
    g2.walls = g.walls ∧
      g2.corners.map (fun c => (c.cid, c.adj)) =
        g.corners.map (fun c => (c.cid, c.adj)) ∧
      g2.tol = g.tol ∧ g2.nextCid = g.nextCid ∧ g2.nextWid = g.nextWid := by
  have hred : ∀ (cid : ℕ) (oldPos newPos : ℤ × ℤ),
      (moveAndRekey g cid oldPos newPos).map some = .ok (some g2) →
      g2.walls = g.walls ∧
        g2.corners.map (fun c => (c.cid, c.adj)) =
          g.corners.map (fun c => (c.cid, c.adj)) ∧
        g2.tol = g.tol ∧ g2.nextCid = g.nextCid ∧ g2.nextWid = g.nextWid := by
    intro cid oldPos newPos hmk
    rcases hdel : dictDelete g.dict oldPos with e2 | d <;>
      simp [moveAndRekey, hdel, Except.map] at hmk
    subst hmk
    exact ⟨rfl, setPos_cid_adj _ _ _, rfl, rfl, rfl⟩
  simp only [straightenStep] at hs
  split at hs
  · exact Except.noConfusion hs
  · simp at hs
  · split at hs
    · split at hs
      · exact hred _ _ _ hs
      · exact hred _ _ _ hs
    · split at hs
      · exact hred _ _ _ hs
      · exact hred _ _ _ hs

/-- Helper for C10: the frame property extended over the whole loop. -/
theorem straightenGo_frame (grad : RatCfg) (file : String) :
    ∀ (fuel iter : ℕ) (h h' : HouseSt),
      straightenGo grad file iter fuel h = .ok h' →
      h'.rooms = h.rooms ∧ h'.fileName = h.fileName ∧
        h'.graph.walls = h.graph.walls ∧
        h'.graph.corners.map (fun c => (c.cid, c.adj)) =
          h.graph.corners.map (fun c => (c.cid, c.adj)) := by
  intro fuel
  induction fuel with
  | zero =>
    intro iter h h' hk
    have : h = h' := Except.ok.inj hk
    subst this
    exact ⟨rfl, rfl, rfl, rfl⟩
  | succ n ih =>
    intro iter h h' hk
    rcases hs : straightenStep grad h.graph with e | og
    · simp only [straightenGo, hs] at hk
      exact Except.noConfusion hk
    · rcases og with _ | g2
      · simp only [straightenGo, hs] at hk
        have : h = h' := Except.ok.inj hk
        subst this
        exact ⟨rfl, rfl, rfl, rfl⟩
      · simp only [straightenGo, hs] at hk
        obtain ⟨hr, hf2, hw, hc⟩ := ih (iter + 1) _ h' hk
        obtain ⟨hw2, hc2, _, _, _⟩ := straightenStep_frame grad h.graph g2 hs
        exact ⟨hr, hf2, hw.trans hw2, hc.trans hc2⟩

/-- C10: on successful completion, `straighten_walls` has modified only
corner positions and the position-derived keys of the corner index: the
wall list is unchanged (hence every wall's endpoints, holes and room-type
labels), every corner keeps its identity and adjacency list, and the room
descriptions (their wall-set keys and wall membership) are untouched. -/
theorem c10_straighten_frame (grad : RatCfg) (maxIter : ℕ) (h h' : HouseSt)
    (hok : straighten_walls grad maxIter h = .ok h') :
    h'.rooms = h.rooms ∧ h'.fileName = h.fileName ∧
      h'.graph.walls = h.graph.walls ∧
      h'.graph.corners.map (fun c => (c.cid, c.adj)) =
        h.graph.corners.map (fun c => (c.cid, c.adj)) :=
  straightenGo_frame grad h.fileName maxIter 0 h h' hok

/-- C10 witness: the frame property at a concrete house (an already
axis-aligned wall carrying a hole, plus a room referencing it). -/
theorem c10_witness :
    c10House.rooms = c10House.rooms ∧
      c10House.fileName = c10House.fileName ∧
      c10House.graph.walls = c10House.graph.walls ∧
      c10House.graph.corners.map (fun c => (c.cid, c.adj)) =
        c10House.graph.corners.map (fun c => (c.cid, c.adj)) :=
  c10_straighten_frame (1, 10) 5 c10House c10House (by decide)

/-- Helper for C7: every edge appended for a hole carries that hole's id. -/
theorem rdrEdgesFor_hid (rooms : List RoomKey) (w : WallRec) (h : HoleRec) :
    ∀ e ∈ rdrEdgesFor rooms w h, e.2.1 = h.hid := by
  intro e he
  unfold rdrEdgesFor at he
  split at he <;> simp_all <;> rcases he with he | he <;> simp [he]

/-- Helper for C7: a wall's holes contribute no edge carrying a foreign
hole id. -/
theorem wallRdr_filter_notmem (rooms : List RoomKey) (w : WallRec) (hid : ℕ) :
    ∀ hs : List HoleRec, hid ∉ hs.map (fun x => x.hid) →
      (wallRdr rooms w hs).filter (fun e => decide (e.2.1 = hid)) = [] := by
  intro hs
  induction hs with
  | nil => intro _; rfl
  | cons h1 t ih =>
    intro hnot
    simp only [List.map_cons, List.mem_cons, not_or] at hnot
    simp only [wallRdr, List.filter_append]
    rw [ih hnot.2, List.filter_eq_nil_iff.mpr, List.nil_append]
    intro e he
    by_cases hdoor : h1.htype = some "door"
    · rw [if_pos hdoor] at he
      have := rdrEdgesFor_hid rooms w h1 e he
      simp [this]
      exact fun hc => hnot.1 hc.symm
    · rw [if_neg hdoor] at he
      exact absurd he (by simp)

/-- Helper for C7: the edges carrying a door hole's id among a wall's
contributions are exactly the edges appended for that hole, provided the
hole ids on the wall are distinct. -/
theorem wallRdr_filter_mem (rooms : List RoomKey) (w : WallRec) (h : HoleRec) :
    ∀ hs : List HoleRec, (hs.map (fun x => x.hid)).Nodup → h ∈ hs →
      h.htype = some "door" →
      (wallRdr rooms w hs).filter (fun e => decide (e.2.1 = h.hid)) =
        rdrEdgesFor rooms w h := by
  intro hs
  induction hs with
  | nil => intro _ hmem _; exact absurd hmem (by simp)
  | cons h1 t ih =>
    intro hnd hmem hdoor
    simp only [List.map_cons, List.nodup_cons] at hnd
    simp only [wallRdr, List.filter_append]
    rcases List.mem_cons.mp hmem with heq | htl
    · subst heq
      rw [if_pos hdoor]
      rw [List.filter_eq_self.mpr (fun e he => by
          simp [rdrEdgesFor_hid rooms w h e he])]
      rw [wallRdr_filter_notmem rooms w h.hid t hnd.1, List.append_nil]
    · have hne : h1.hid ≠ h.hid := by
        intro hc
        exact hnd.1 (hc ▸ List.mem_map.mpr ⟨h, htl, rfl⟩)
      rw [ih hnd.2 htl hdoor]
      have hleft :
          (if h1.htype = some "door" then rdrEdgesFor rooms w h1 else []).filter
              (fun e => decide (e.2.1 = h.hid)) = [] := by
        rw [List.filter_eq_nil_iff]
        intro e he
        by_cases hd1 : h1.htype = some "door"
        · rw [if_pos hd1] at he
          have := rdrEdgesFor_hid rooms w h1 e he
          simp [this]
          exact fun hc => hne hc
        · rw [if_neg hd1] at he
          exact absurd he (by simp)
      rw [hleft, List.nil_append]

/-- Helper for C7: a hole on some wall of a list has its id among the
list's hole ids. -/
theorem mem_allHoleIds (h : HoleRec) :
    ∀ walls : List WallRec, ∀ w ∈ walls, h ∈ w.holes →
      h.hid ∈ allHoleIds walls := by
  intro walls
  induction walls with
  | nil => intro w hw; exact absurd hw (by simp)
  | cons w1 ws ih =>
    intro w hw hh
    rcases List.mem_cons.mp hw with heq | htl
    · subst heq
      exact List.mem_append.mpr (.inl (List.mem_map.mpr ⟨h, hh, rfl⟩))
    · exact List.mem_append.mpr (.inr (ih w htl hh))

/-- Helper for C7: walls carrying only foreign hole ids contribute no edge
with the given id. -/
theorem compute_rdr_filter_notmem (rooms : List RoomKey) (hid : ℕ) :
    ∀ walls : List WallRec, hid ∉ allHoleIds walls →
      (compute_rdr rooms walls).filter (fun e => decide (e.2.1 = hid)) = [] := by
  intro walls
  induction walls with
  | nil => intro _; rfl
  | cons w1 ws ih =>
    intro hnot
    simp only [allHoleIds, List.mem_append, not_or] at hnot
    simp only [compute_rdr, List.filter_append]
    rw [wallRdr_filter_notmem rooms w1 hid w1.holes hnot.1, ih hnot.2]
    rfl

/-- Helper for C7: the edges carrying a door hole's id in the full RDR list
are exactly the ones appended for that hole. -/
theorem compute_rdr_filter_eq (rooms : List RoomKey) (w : WallRec)
    (h : HoleRec) :
    ∀ walls : List WallRec, (allHoleIds walls).Nodup → w ∈ walls →
      h ∈ w.holes → h.htype = some "door" →
      (compute_rdr rooms walls).filter (fun e => decide (e.2.1 = h.hid)) =
        rdrEdgesFor rooms w h := by
  intro walls
  induction walls with
  | nil => intro _ hw _ _; exact absurd hw (by simp)
  | cons w1 ws ih =>
    intro hnd hw hh hdoor
    have hnd2 := List.nodup_append.mp (by simpa [allHoleIds] using hnd)
    simp only [compute_rdr, List.filter_append]
    rcases List.mem_cons.mp hw with heq | htl
    · subst heq
      rw [wallRdr_filter_mem rooms w h w.holes hnd2.1 hh hdoor,
          compute_rdr_filter_notmem rooms h.hid ws
            (hnd2.2.2 (List.mem_map.mpr ⟨h, hh, rfl⟩)),
          List.append_nil]
    · rw [wallRdr_filter_notmem rooms w1 h.hid w1.holes
            (fun hc => hnd2.2.2 hc (mem_allHoleIds h ws w htl hh)),
          ih hnd2.2.1 htl hh hdoor, List.nil_append]

/-- C7: for a Hole classified as door (with hole ids globally distinct, as
the random generator provides), the RDR edges carrying that hole are
exactly the ones `compute_rdr` appends for it: both directed edges
`(A, hole, B)` and `(B, hole, A)` when its host wall lies in exactly two
rooms' wall-set keys, only `(A, hole, none)` when in exactly one, and none
when in none — and no other RDR edge references that hole. -/
theorem c7_rdr_symmetry (rooms : List RoomKey) (walls : List WallRec)
    (w : WallRec) (h : HoleRec) (hnd : (allHoleIds walls).Nodup)
    (hw : w ∈ walls) (hh : h ∈ w.holes) (hdoor : h.htype = some "door") :
    (compute_rdr rooms walls).filter (fun e => decide (e.2.1 = h.hid)) =
        rdrEdgesFor rooms w h ∧
      (findAdjacentRooms rooms w.wid = [] → rdrEdgesFor rooms w h = []) ∧
      (∀ a, findAdjacentRooms rooms w.wid = [a] →
        rdrEdgesFor rooms w h = [(a, h.hid, none)]) ∧
      (∀ a b, findAdjacentRooms rooms w.wid = [a, b] →
        rdrEdgesFor rooms w h = [(a, h.hid, some b), (b, h.hid, some a)]) := by
  refine ⟨compute_rdr_filter_eq rooms w h walls hnd hw hh hdoor, ?_, ?_, ?_⟩
  · intro hadj; simp [rdrEdgesFor, hadj]
  · intro a hadj; simp [rdrEdgesFor, hadj]
  · intro a b hadj; simp [rdrEdgesFor, hadj]

/-- C7 witness: a door hole on a wall shared by two rooms yields exactly
the two directed edges. -/
theorem c7_witness :
    (compute_rdr [[0, 5], [0, 7]] [⟨0, 1, 2, [⟨42, 1, 3, some "door"⟩], none, none⟩]).filter
        (fun e => decide (e.2.1 = 42)) =
      rdrEdgesFor [[0, 5], [0, 7]] ⟨0, 1, 2, [⟨42, 1, 3, some "door"⟩], none, none⟩
        ⟨42, 1, 3, some "door"⟩ ∧
      rdrEdgesFor [[0, 5], [0, 7]] ⟨0, 1, 2, [⟨42, 1, 3, some "door"⟩], none, none⟩
          ⟨42, 1, 3, some "door"⟩ =
        [([0, 5], 42, some [0, 7]), ([0, 7], 42, some [0, 5])] :=
  ⟨(c7_rdr_symmetry [[0, 5], [0, 7]]
        [⟨0, 1, 2, [⟨42, 1, 3, some "door"⟩], none, none⟩]
        ⟨0, 1, 2, [⟨42, 1, 3, some "door"⟩], none, none⟩
        ⟨42, 1, 3, some "door"⟩ (by decide) (by decide) (by decide) rfl).1,
    (c7_rdr_symmetry [[0, 5], [0, 7]]
        [⟨0, 1, 2, [⟨42, 1, 3, some "door"⟩], none, none⟩]
        ⟨0, 1, 2, [⟨42, 1, 3, some "door"⟩], none, none⟩
        ⟨42, 1, 3, some "door"⟩ (by decide) (by decide) (by decide) rfl).2.2.2
      [0, 5] [0, 7] (by decide)⟩

/-- Helper: Chebyshev distances are nonnegative. -/
theorem manhattanDistanceBetween_nonneg (a b : ℤ × ℤ) :
    0 ≤ manhattanDistanceBetween a b :=
  le_trans (abs_nonneg _) (le_max_left _ _)

/-- Helper for C8: stable insertion only rearranges. -/
theorem sInsPair_mem (x : PdSq × ODoor × ℕ) :
    ∀ (l : List (PdSq × ODoor × ℕ)) (pr : PdSq × ODoor × ℕ),
      pr ∈ sInsPair x l → pr = x ∨ pr ∈ l := by
  intro l
  induction l with
  | nil => intro pr h; simp [sInsPair] at h; exact .inl h
  | cons y ys ih =>
    intro pr h
    by_cases hlt : pdLtB x.1 y.1 = true
    · rw [sInsPair, if_pos hlt] at h
      rcases List.mem_cons.mp h with h1 | h2
      · exact .inl h1
      · exact .inr h2
    · rw [sInsPair, if_neg hlt] at h
      rcases List.mem_cons.mp h with h1 | h2
      · exact .inr (List.mem_cons.mpr (.inl h1))
      · rcases ih pr h2 with h3 | h3
        · exact .inl h3
        · exact .inr (List.mem_cons.mpr (.inr h3))

/-- Helper for C8: the stable sort only rearranges. -/
theorem sortPairs_mem :
    ∀ (l acc : List (PdSq × ODoor × ℕ)) (pr : PdSq × ODoor × ℕ),
      pr ∈ l.foldl (fun a x => sInsPair x a) acc → pr ∈ acc ∨ pr ∈ l := by
  intro l
  induction l with
  | nil => intro acc pr h; exact .inl h
  | cons x xs ih =>
    intro acc pr h
    rcases ih (sInsPair x acc) pr h with h1 | h1
    · rcases sInsPair_mem x acc pr h1 with h2 | h2
      · exact .inr (List.mem_cons.mpr (.inl h2))
      · exact .inl h2
    · exact .inr (List.mem_cons.mpr (.inr h1))

/-- Helper for C8: every collected pair's door is an input door. -/
theorem collectPairs_doors (margin : RatCfg) (walls : List OWall) :
    ∀ (ds : List ODoor) (pr : PdSq × ODoor × ℕ),
      pr ∈ collectPairs margin walls ds → pr.2.1 ∈ ds := by
  intro ds
  induction ds with
  | nil => intro pr h; exact absurd h (by simp [collectPairs])
  | cons d rest ih =>
    intro pr h
    rcases List.mem_append.mp h with h1 | h1
    · rcases List.mem_filterMap.mp h1 with ⟨w, _, heq⟩
      rcases hl : line_contains_check w.wp1 w.wp2 d.dp1 d.dp2 margin with _ | pd <;>
        rw [hl] at heq
      · exact absurd heq (by simp)
      · have hpr : pr = (pd, d, w.owid) := by simpa using heq.symm
        rw [hpr]
        simp
    · exact List.mem_cons.mpr (.inr (ih pr h1))

/-- Helper for C8: the greedy assignment only ever appends Holes of the
`mkHole` shape for one of the pairs' doors, so the invariant "every hole
has nonnegative Chebyshev bounds of the closest/furthest endpoints of some
door" is preserved. -/
theorem assignGo_shape (rng : ℕ → ℕ) (doors : List ODoor) :
    ∀ (pairs : List (PdSq × ODoor × ℕ)) (ws : List OWall) (added : List ℕ)
      (k : ℕ),
      (∀ pr ∈ pairs, pr.2.1 ∈ doors) →
      (∀ w ∈ ws, ∀ h ∈ w.oholes,
        0 ≤ h.min_x ∧ 0 ≤ h.max_x ∧ holeShapeOk w.wp1 doors h) →
      ∀ w ∈ assignGo rng pairs ws added k, ∀ h ∈ w.oholes,
        0 ≤ h.min_x ∧ 0 ≤ h.max_x ∧ holeShapeOk w.wp1 doors h := by
  intro pairs
  induction pairs with
  | nil => intro ws added k _ hws; exact hws
  | cons pr rest ih =>
    intro ws added k hprs hws
    by_cases hd : pr.2.1.did ∈ added
    · rw [assignGo, if_pos hd]
      exact ih ws added k (fun q hq => hprs q (List.mem_cons.mpr (.inr hq))) hws
    · rw [assignGo, if_neg hd]
      refine ih _ _ _ (fun q hq => hprs q (List.mem_cons.mpr (.inr hq))) ?_
      intro w hw h hh
      rcases List.mem_map.mp hw with ⟨w0, hw0, heq⟩
      by_cases hid : w0.owid = pr.2.2
      · rw [if_pos hid] at heq
        subst heq
        rcases List.mem_append.mp hh with hold | hnew
        · exact hws w0 hw0 h hold
        · have hh2 : h = mkHole (rng k) w0.wp1 pr.2.1.dp1 pr.2.1.dp2 := by
            simpa using hnew
          subst hh2
          refine ⟨manhattanDistanceBetween_nonneg _ _,
              manhattanDistanceBetween_nonneg _ _,
              pr.2.1, hprs pr (List.mem_cons.mpr (.inl rfl)), rfl, rfl⟩
      · rw [if_neg hid] at heq
        subst heq
        exact hws w0 hw0 h hh

/-- C8 amended: every Hole created by opening assignment (on walls that
start with no holes, as `generate_wall_graph` builds them) has
`min_x` and `max_x` equal to the Chebyshev (`manhattan_distance_between`)
distances from the wall's first endpoint to the Euclidean-closest and
-furthest endpoints of some input door, and both bounds are nonnegative.
Contrary to the claim, `min_x ≤ max_x` is **not** guaranteed (the
Euclidean-closest endpoint need not be Chebyshev-closest), nor need the
interval lie within `[0, wall_length]` (see the counterexample). -/
theorem c8_amended (rng : ℕ → ℕ) (margin : RatCfg) (walls : List OWall)
    (doors : List ODoor)
    (hinit : ∀ w ∈ walls, w.oholes = ([] : List HoleRec)) :
    ∀ w ∈ assignOpenings rng margin walls doors, ∀ h ∈ w.oholes,
      0 ≤ h.min_x ∧ 0 ≤ h.max_x ∧ holeShapeOk w.wp1 doors h := by
  refine assignGo_shape rng doors _ walls [] 0 ?_ ?_
  · intro q hq
    exact collectPairs_doors margin walls doors q
      (by rcases sortPairs_mem _ [] q hq with h | h
          · exact absurd h (by simp)
          · exact h)
  · intro w hw h hh
    rw [hinit w hw] at hh
    exact absurd hh (by simp)

/-- C8 witness: the Hole `[8, 11]` produced on the horizontal wall
`(0,0)-(10,0)` for the door `(8,0)-(11,0)` satisfies the amended shape
property. -/
theorem c8_amended_witness :
    0 ≤ (HoleRec.mk 0 8 11 none).min_x ∧
      0 ≤ (HoleRec.mk 0 8 11 none).max_x ∧
      holeShapeOk (0, 0) [⟨0, (8, 0), (11, 0)⟩] ⟨0, 8, 11, none⟩ :=
  c8_amended (fun _ => 0) (5, 1) [⟨1, (0, 0), (10, 0), []⟩]
    [⟨0, (8, 0), (11, 0)⟩] (by decide)
    ⟨1, (0, 0), (10, 0), [⟨0, 8, 11, none⟩]⟩ (by decide)
    ⟨0, 8, 11, none⟩ (by decide)

/-! Helper lemmas for C2 about `find_closest` and `add_wall`. -/

/-- Components of the running best/second pair come from the seed or the
traversed list. -/
theorem selectFold_mem :
    ∀ (l : List (ℤ × ℕ)) (acc : Option (ℤ × ℕ) × Option (ℤ × ℕ))
      (x : ℤ × ℕ),
      ((l.foldl selectStep acc).1 = some x ∨
          (l.foldl selectStep acc).2 = some x) →
      acc.1 = some x ∨ acc.2 = some x ∨ x ∈ l := by
  intro l
  induction l with
  | nil => intro acc x h; rcases h with h | h
           · exact .inl h
           · exact .inr (.inl h)
  | cons a t ih =>
    intro acc x h
    have hstep : (selectStep acc a).1 = some x ∨ (selectStep acc a).2 = some x →
        acc.1 = some x ∨ acc.2 = some x ∨ x = a := by
      intro hs
      rcases acc with ⟨bo, so⟩
      rcases bo with _ | b
      · simp only [selectStep] at hs
        rcases hs with hs | hs
        · exact .inr (.inr (Option.some.inj hs).symm)
        · exact absurd hs (by simp)
      · rcases so with _ | sx
        · simp only [selectStep] at hs
          by_cases hlt : a.1 < b.1
          · rw [if_pos hlt] at hs
            rcases hs with hs | hs
            · exact .inr (.inr (Option.some.inj hs).symm)
            · exact .inl hs
          · rw [if_neg hlt] at hs
            rcases hs with hs | hs
            · exact .inl hs
            · exact .inr (.inr (Option.some.inj hs).symm)
        · simp only [selectStep] at hs
          by_cases hlt1 : a.1 < b.1
          · rw [if_pos hlt1] at hs
            rcases hs with hs | hs
            · exact .inr (.inr (Option.some.inj hs).symm)
            · exact .inl hs
          · rw [if_neg hlt1] at hs
            by_cases hlt2 : a.1 < sx.1
            · rw [if_pos hlt2] at hs
              rcases hs with hs | hs
              · exact .inl hs
              · exact .inr (.inr (Option.some.inj hs).symm)
            · rw [if_neg hlt2] at hs
              rcases hs with hs | hs
              · exact .inl hs
              · exact .inr (.inl hs)
    rcases ih (selectStep acc a) x h with h1 | h1 | h1
    · rcases hstep (.inl h1) with h2 | h2 | h2
      · exact .inl h2
      · exact .inr (.inl h2)
      · exact .inr (.inr (List.mem_cons.mpr (.inl h2)))
    · rcases hstep (.inr h1) with h2 | h2 | h2
      · exact .inl h2
      · exact .inr (.inl h2)
      · exact .inr (.inr (List.mem_cons.mpr (.inl h2)))
    · exact .inr (.inr (List.mem_cons.mpr (.inr h1)))

/-- The closest candidate returned by `find_closest` is in the distance
list. -/
theorem selectTwo_fst_mem (l : List (ℤ × ℕ)) (x : ℤ × ℕ)
    (h : (selectTwo l).1 = some x) : x ∈ l := by
  rcases selectFold_mem l (none, none) x (.inl h) with h1 | h1 | h1
  · exact absurd h1 (by simp)
  · exact absurd h1 (by simp)
  · exact h1

/-- The second-closest candidate returned by `find_closest` is in the
distance list. -/
theorem selectTwo_snd_mem (l : List (ℤ × ℕ)) (x : ℤ × ℕ)
    (h : (selectTwo l).2 = some x) : x ∈ l := by
  rcases selectFold_mem l (none, none) x (.inr h) with h1 | h1 | h1
  · exact absurd h1 (by simp)
  · exact absurd h1 (by simp)
  · exact h1

/-- Every entry of the distance list is an existing corner within the
cutoff. -/
theorem distList_mem (g : Graph) (p : ℤ × ℤ) (x : ℤ × ℕ)
    (hx : x ∈ distList g p) :
    ∃ c ∈ g.corners, c.cid = x.2 ∧
      x.1 = manhattanDistanceBetween c.pos p ∧
      intLtRat x.1 g.tol = true := by
  rcases List.mem_filterMap.mp hx with ⟨e, _, heq⟩
  rcases hc : getCorner g e.2 with _ | c <;> rw [hc] at heq
  · exact absurd heq (by simp)
  · simp only [Option.some_bind] at heq
    by_cases hlt : intLtRat (manhattanDistanceBetween c.pos p) g.tol = true
    · rw [if_pos hlt] at heq
      have hxe := Option.some.inj heq
      refine ⟨c, List.mem_of_find?_eq_some hc, ?_, ?_, ?_⟩ <;>
        simp [← hxe, hlt]
    · rw [if_neg hlt] at heq
      exact absurd heq (by simp)

/-- `find_closest`'s closest result is an existing corner strictly within
the cutoff. -/
theorem findClosest_fst_spec (g : Graph) (p : ℤ × ℤ) (n : ℕ)
    (h : (findClosest g p).1 = some n) :
    ∃ c ∈ g.corners, c.cid = n ∧
      intLtRat (manhattanDistanceBetween c.pos p) g.tol = true := by
  simp only [findClosest, Option.map_eq_some'] at h
  rcases h with ⟨x, hx, hxn⟩
  rcases distList_mem g p x (selectTwo_fst_mem _ x hx) with ⟨c, hc, hcid, hd, hlt⟩
  exact ⟨c, hc, hcid.trans hxn, by rwa [← hd]⟩

/-- `find_closest`'s second-closest result is an existing corner strictly
within the cutoff. -/
theorem findClosest_snd_spec (g : Graph) (p : ℤ × ℤ) (n : ℕ)
    (h : (findClosest g p).2 = some n) :
    ∃ c ∈ g.corners, c.cid = n ∧
      intLtRat (manhattanDistanceBetween c.pos p) g.tol = true := by
  simp only [findClosest, Option.map_eq_some'] at h
  rcases h with ⟨x, hx, hxn⟩
  rcases distList_mem g p x (selectTwo_snd_mem _ x hx) with ⟨c, hc, hcid, hd, hlt⟩
  exact ⟨c, hc, hcid.trans hxn, by rwa [← hd]⟩

theorem KeepCP_refl (g : Graph) : KeepCP g g :=
  fun c hc => ⟨c, hc, rfl, rfl⟩

theorem KeepCP_trans {g1 g2 g3 : Graph} (h12 : KeepCP g1 g2)
    (h23 : KeepCP g2 g3) : KeepCP g1 g3 := by
  intro c hc
  rcases h12 c hc with ⟨c2, hc2, hcid2, hpos2⟩
  rcases h23 c2 hc2 with ⟨c3, hc3, hcid3, hpos3⟩
  exact ⟨c3, hc3, hcid3.trans hcid2, hpos3.trans hpos2⟩

/-- Structural facts about `resolveOpt`: the wall list, tolerance and wall
counter are untouched, existing corners survive, and the resolved corner id
denotes a corner of the result that is within tolerance of the raw point or
sits exactly at it. -/
theorem resolveOpt_spec (g : Graph) (p : ℤ × ℤ) (no : Option ℕ)
    (hno : ∀ n, no = some n → ∃ c ∈ g.corners, c.cid = n ∧
      (intLtRat (manhattanDistanceBetween c.pos p) g.tol = true ∨ c.pos = p)) :
    (resolveOpt g p no).1.walls = g.walls ∧
      (resolveOpt g p no).1.tol = g.tol ∧
      (resolveOpt g p no).1.nextWid = g.nextWid ∧
      KeepCP g (resolveOpt g p no).1 ∧
      ∃ c ∈ (resolveOpt g p no).1.corners, c.cid = (resolveOpt g p no).2 ∧
        (intLtRat (manhattanDistanceBetween c.pos p) g.tol = true ∨
          c.pos = p) := by
  rcases no with _ | n
  · refine ⟨rfl, rfl, rfl, ?_, ?_⟩
    · intro c hc
      exact ⟨c, List.mem_append.mpr (.inl hc), rfl, rfl⟩
    · exact ⟨⟨g.nextCid, p, []⟩, List.mem_append.mpr (.inr (by simp)), rfl,
        .inr rfl⟩
  · rcases hno n rfl with ⟨c, hc, hcid, hd⟩
    exact ⟨rfl, rfl, rfl, KeepCP_refl g, c, hc, hcid, hd⟩

/-- The tie-break hands each endpoint either its originally resolved corner
or the second-closest candidate of its own lookup. -/
theorem tieBreak_fst (gB : Graph) (p1 p2 : ℤ × ℤ) (n1 n2 : ℕ)
    (b1 b2 : Option ℕ) (n : ℕ)
    (h : (tieBreak gB p1 p2 n1 n2 b1 b2).1 = some n) :
    n = n1 ∨ b1 = some n := by
  unfold tieBreak at h
  split at h
  · split at h
    · exact .inl (Option.some.inj h).symm
    · exact .inr h
  · exact .inl (Option.some.inj h).symm

theorem tieBreak_snd (gB : Graph) (p1 p2 : ℤ × ℤ) (n1 n2 : ℕ)
    (b1 b2 : Option ℕ) (n : ℕ)
    (h : (tieBreak gB p1 p2 n1 n2 b1 b2).2 = some n) :
    n = n2 ∨ b2 = some n := by
  unfold tieBreak at h
  split at h
  · split at h
    · exact .inr h
    · exact .inl (Option.some.inj h).symm
  · exact .inl (Option.some.inj h).symm

/-- Adjacency registration preserves corner ids and positions. -/
theorem appendAdj_keep (g : Graph) (cs : List CornerRec) (cid wid : ℕ)
    (h : ∀ c ∈ g.corners, ∃ c2 ∈ cs, c2.cid = c.cid ∧ c2.pos = c.pos) :
    ∀ c ∈ g.corners, ∃ c2 ∈ appendAdj cs cid wid, c2.cid = c.cid ∧
      c2.pos = c.pos := by
  intro c hc
  rcases h c hc with ⟨c2, hc2, hcid, hpos⟩
  by_cases he : c2.cid = cid
  · exact ⟨{ c2 with adj := c2.adj ++ [wid] },
      List.mem_map.mpr ⟨c2, hc2, by simp [appendAdj, he]⟩, hcid, hpos⟩
  · exact ⟨c2, List.mem_map.mpr ⟨c2, hc2, by simp [appendAdj, he]⟩, hcid, hpos⟩

/-- C2 amended, part 1 (merge soundness): a successful `add_wall` appends
exactly one wall, and each of its two endpoint Corners is a corner of the
result that is either strictly within `tolerance_distance` of the raw
endpoint in the Chebyshev metric or placed exactly at the raw endpoint. -/
theorem add_wall_sound (g : Graph) (p1 p2 : ℤ × ℤ) (l r : Option String)
    (g2 : Graph) (hp : p1 ≠ p2) (hok : add_wall g p1 p2 l r = .ok g2) :
    ∃ w, g2.walls = g.walls ++ [w] ∧
      (∃ c ∈ g2.corners, c.cid = w.c1 ∧
        (intLtRat (manhattanDistanceBetween c.pos p1) g.tol = true ∨
          c.pos = p1)) ∧
      (∃ c ∈ g2.corners, c.cid = w.c2 ∧
        (intLtRat (manhattanDistanceBetween c.pos p2) g.tol = true ∨
          c.pos = p2)) := by
  simp only [add_wall, if_neg hp] at hok
  set r1 := findClosest g p1 with hr1
  set gn1 := resolveOpt g p1 r1.1 with hgn1
  set r2 := findClosest gn1.1 p2 with hr2
  set gn2 := resolveOpt gn1.1 p2 r2.1 with hgn2
  set tb := tieBreak gn2.1 p1 p2 gn1.2 gn2.2 r1.2 r2.2 with htb
  set gm1 := resolveOpt gn2.1 p1 tb.1 with hgm1
  set gm2 := resolveOpt gm1.1 p2 tb.2 with hgm2
  have S1 := resolveOpt_spec g p1 r1.1 (fun n hn => by
    rcases findClosest_fst_spec g p1 n (hr1 ▸ hn) with ⟨c, hc, hcid, hlt⟩
    exact ⟨c, hc, hcid, .inl hlt⟩)
  rw [← hgn1] at S1
  have S2 := resolveOpt_spec gn1.1 p2 r2.1 (fun n hn => by
    rcases findClosest_fst_spec gn1.1 p2 n (hr2 ▸ hn) with ⟨c, hc, hcid, hlt⟩
    exact ⟨c, hc, hcid, .inl hlt⟩)
  rw [← hgn2] at S2
  have hno1 : ∀ n, tb.1 = some n → ∃ c ∈ gn2.1.corners, c.cid = n ∧
      (intLtRat (manhattanDistanceBetween c.pos p1) g.tol = true ∨
        c.pos = p1) := by
    intro n hn
    rcases tieBreak_fst gn2.1 p1 p2 gn1.2 gn2.2 r1.2 r2.2 n (htb ▸ hn) with
      he | hb
    · rcases S1.2.2.2.2 with ⟨c, hc, hcid, hd⟩
      rcases S2.2.2.2.1 c hc with ⟨c2, hc2, hcid2, hpos2⟩
      exact ⟨c2, hc2, by rw [hcid2, hcid, he], by rw [hpos2]; exact hd⟩
    · rcases findClosest_snd_spec g p1 n (hr1 ▸ hb) with ⟨c, hc, hcid, hlt⟩
      rcases (KeepCP_trans S1.2.2.2.1 S2.2.2.2.1) c hc with
        ⟨c2, hc2, hcid2, hpos2⟩
      exact ⟨c2, hc2, hcid2.trans hcid, .inl (by rwa [hpos2])⟩
  have hno2 : ∀ n, tb.2 = some n → ∃ c ∈ gn2.1.corners, c.cid = n ∧
      (intLtRat (manhattanDistanceBetween c.pos p2) g.tol = true ∨
        c.pos = p2) := by
    intro n hn
    rcases tieBreak_snd gn2.1 p1 p2 gn1.2 gn2.2 r1.2 r2.2 n (htb ▸ hn) with
      he | hb
    · rcases S2.2.2.2.2 with ⟨c, hc, hcid, hd⟩
      refine ⟨c, hc, by rw [hcid, he], ?_⟩
      rcases hd with hd | hd
      · exact .inl (by rwa [S1.2.1] at hd)
      · exact .inr hd
    · rcases findClosest_snd_spec gn1.1 p2 n (hr2 ▸ hb) with ⟨c, hc, hcid, hlt⟩
      rcases S2.2.2.2.1 c hc with ⟨c2, hc2, hcid2, hpos2⟩
      refine ⟨c2, hc2, hcid2.trans hcid, .inl ?_⟩
      rw [hpos2]
      rwa [S1.2.1] at hlt
  have M1 := resolveOpt_spec gn2.1 p1 tb.1 (fun n hn => by
    rcases hno1 n hn with ⟨c, hc, hcid, hd⟩
    refine ⟨c, hc, hcid, ?_⟩
    rcases hd with hd | hd
    · exact .inl (by rwa [S2.2.1, S1.2.1])
    · exact .inr hd)
  rw [← hgm1] at M1
  have hno2b : ∀ n, tb.2 = some n → ∃ c ∈ gm1.1.corners, c.cid = n ∧
      (intLtRat (manhattanDistanceBetween c.pos p2) gm1.1.tol = true ∨
        c.pos = p2) := by
    intro n hn
    rcases hno2 n hn with ⟨c, hc, hcid, hd⟩
    rcases M1.2.2.2.1 c hc with ⟨c2, hc2, hcid2, hpos2⟩
    refine ⟨c2, hc2, hcid2.trans hcid, ?_⟩
    rcases hd with hd | hd
    · exact .inl (by rw [hpos2, M1.2.1, S2.2.1, S1.2.1]; exact hd)
    · exact .inr (hpos2.trans hd)
  have M2 := resolveOpt_spec gm1.1 p2 tb.2 hno2b
  rw [← hgm2] at M2
  split at hok
  · exact Except.noConfusion hok
  · have hg2 := (Except.ok.inj hok).symm
    refine ⟨⟨gm2.1.nextWid, gm1.2, gm2.2, [], l, r⟩, ?_, ?_, ?_⟩
    · rw [hg2]
      show gm2.1.walls ++ _ = g.walls ++ _
      rw [M2.1, M1.1, S2.1, S1.1]
    · rcases M1.2.2.2.2 with ⟨c, hc, hcid, hd⟩
      rcases M2.2.2.2.1 c hc with ⟨c2, hc2, hcid2, hpos2⟩
      have hmem : ∃ c3 ∈ g2.corners, c3.cid = c2.cid ∧ c3.pos = c2.pos := by
        rw [hg2]
        exact appendAdj_keep gm2.1 _ gm2.2 _
          (appendAdj_keep gm2.1 gm2.1.corners gm1.2 _
            (fun x hx => ⟨x, hx, rfl, rfl⟩)) c2 hc2
      rcases hmem with ⟨c3, hc3, hcid3, hpos3⟩
      refine ⟨c3, hc3, by rw [hcid3, hcid2, hcid], ?_⟩
      rcases hd with hd | hd
      · exact .inl (by rw [hpos3, hpos2]
                       rwa [S2.2.1.trans S1.2.1] at hd)
      · exact .inr (by rw [hpos3, hpos2, hd])
    · rcases M2.2.2.2.2 with ⟨c, hc, hcid, hd⟩
      have hmem : ∃ c3 ∈ g2.corners, c3.cid = c.cid ∧ c3.pos = c.pos := by
        rw [hg2]
        exact appendAdj_keep gm2.1 _ gm2.2 _
          (appendAdj_keep gm2.1 gm2.1.corners gm1.2 _
            (fun x hx => ⟨x, hx, rfl, rfl⟩)) c hc
      rcases hmem with ⟨c3, hc3, hcid3, hpos3⟩
      refine ⟨c3, hc3, by rw [hcid3, hcid], ?_⟩
      rcases hd with hd | hd
      · exact .inl (by rw [hpos3]
                       rwa [M1.2.1.trans (S2.2.1.trans S1.2.1)] at hd)
      · exact .inr (hpos3.trans hd)

/-- When every existing corner is at Chebyshev distance at least the
tolerance from the target, the distance list of `find_closest` is empty. -/
theorem distList_nil (g : Graph) (p : ℤ × ℤ)
    (h : ∀ c ∈ g.corners,
      ¬ intLtRat (manhattanDistanceBetween c.pos p) g.tol = true) :
    distList g p = [] := by
  rw [distList, List.filterMap_eq_nil_iff]
  intro e _
  rcases hc : getCorner g e.2 with _ | c
  · rfl
  · simp only [Option.some_bind]
    rw [if_neg (h c (List.mem_of_find?_eq_some hc))]

theorem findClosest_of_nil (g : Graph) (p : ℤ × ℤ)
    (h : distList g p = []) : findClosest g p = (none, none) := by
  simp [findClosest, h, selectTwo]

/-- `find?` by corner id skips a prefix with different ids. -/
theorem find?_cid_append (cs tail : List CornerRec) (n : ℕ)
    (h : ∀ c ∈ cs, c.cid ≠ n) :
    (cs ++ tail).find? (fun c => c.cid = n) =
      tail.find? (fun c => c.cid = n) := by
  induction cs with
  | nil => rfl
  | cons d t ih =>
    rw [List.cons_append,
      List.find?_cons_of_neg _ (by simp [h d (List.mem_cons.mpr (.inl rfl))]),
      ih (fun c hc => h c (List.mem_cons.mpr (.inr hc)))]

/-- The explicit record produced by `freshCorner`. -/
theorem freshCorner_eq (g : Graph) (p : ℤ × ℤ) :
    freshCorner g p =
      ({ dict := dictInsert g.dict p g.nextCid
         corners := g.corners ++ [⟨g.nextCid, p, []⟩]
         walls := g.walls
         nextCid := g.nextCid + 1
         nextWid := g.nextWid
         tol := g.tol }, g.nextCid) := rfl

/-- C2 amended, part 2 (separation): when both raw endpoints are at
Chebyshev distance at least `tolerance_distance` from every existing corner
and from each other, `add_wall` succeeds and creates two distinct fresh
Corners, one exactly at each endpoint. -/
theorem add_wall_separate (g : Graph) (p1 p2 : ℤ × ℤ) (l r : Option String)
    (hb : cidBound g)
    (h1 : ∀ c ∈ g.corners,
      ¬ intLtRat (manhattanDistanceBetween c.pos p1) g.tol = true)
    (h2 : ∀ c ∈ g.corners,
      ¬ intLtRat (manhattanDistanceBetween c.pos p2) g.tol = true)
    (h12 : ¬ intLtRat (manhattanDistanceBetween p1 p2) g.tol = true)
    (hp : p1 ≠ p2) :
    ∃ g2, add_wall g p1 p2 l r = .ok g2 ∧
      g2.corners.map (fun c => (c.cid, c.pos)) =
        g.corners.map (fun c => (c.cid, c.pos)) ++
          [(g.nextCid, p1), (g.nextCid + 1, p2)] ∧
      ∃ w, g2.walls = g.walls ++ [w] ∧ w.c1 = g.nextCid ∧
        w.c2 = g.nextCid + 1 ∧ w.c1 ≠ w.c2 := by
  have hfc1 : findClosest g p1 = (none, none) :=
    findClosest_of_nil g p1 (distList_nil g p1 h1)
  set A : CornerRec := ⟨g.nextCid, p1, []⟩ with hA
  set gA : Graph :=
    { dict := dictInsert g.dict p1 g.nextCid
      corners := g.corners ++ [A]
      walls := g.walls
      nextCid := g.nextCid + 1
      nextWid := g.nextWid
      tol := g.tol } with hgA
  have hfresh1 : freshCorner g p1 = (gA, g.nextCid) := freshCorner_eq g p1
  have hfc2 : findClosest gA p2 = (none, none) := by
    refine findClosest_of_nil gA p2 (distList_nil gA p2 ?_)
    intro c hc
    rcases List.mem_append.mp hc with hold | hnew
    · exact h2 c hold
    · have : c = A := by simpa using hnew
      rw [this]
      exact h12
  set B : CornerRec := ⟨g.nextCid + 1, p2, []⟩ with hB
  set gB : Graph :=
    { dict := dictInsert gA.dict p2 (g.nextCid + 1)
      corners := gA.corners ++ [B]
      walls := gA.walls
      nextCid := g.nextCid + 1 + 1
      nextWid := gA.nextWid
      tol := gA.tol } with hgB
  have hfresh2 : freshCorner gA p2 = (gB, g.nextCid + 1) := freshCorner_eq gA p2
  have hne12 : g.nextCid ≠ g.nextCid + 1 := by omega
  have hposA : posOfD gB g.nextCid = p1 := by
    rw [posOfD, getCorner]
    show ((((g.corners ++ [A]) ++ [B]).find? fun c => c.cid = g.nextCid).map
        (fun c => c.pos)).getD (0, 0) = p1
    rw [List.append_assoc, find?_cid_append g.corners ([A] ++ [B]) g.nextCid
        (fun c hc => by have := hb c hc; omega)]
    rw [List.cons_append, List.find?_cons_of_pos _ (by simp [hA])]
    rfl
  have hposB : posOfD gB (g.nextCid + 1) = p2 := by
    rw [posOfD, getCorner]
    show ((((g.corners ++ [A]) ++ [B]).find? fun c => c.cid = g.nextCid + 1).map
        (fun c => c.pos)).getD (0, 0) = p2
    rw [List.append_assoc, find?_cid_append g.corners ([A] ++ [B]) (g.nextCid + 1)
        (fun c hc => by have := hb c hc; omega)]
    rw [List.cons_append,
      List.find?_cons_of_neg _ (by simp [hA, hne12]),
      List.nil_append,
      List.find?_cons_of_pos _ (by simp [hB])]
    rfl
  set w0 : WallRec := ⟨gB.nextWid, g.nextCid, g.nextCid + 1, [], l, r⟩ with hw0
  set g2rec : Graph :=
    { dict := gB.dict
      corners := appendAdj (appendAdj gB.corners g.nextCid gB.nextWid)
        (g.nextCid + 1) gB.nextWid
      walls := gB.walls ++ [w0]
      nextCid := gB.nextCid
      nextWid := gB.nextWid + 1
      tol := gB.tol } with hg2rec
  refine ⟨g2rec, ?_, ?_, ?_⟩
  · rw [add_wall, if_neg hp]
    simp only [hfc1, resolveOpt, hfresh1, hfc2, hfresh2, tieBreak,
      if_neg hne12, hposA, hposB, if_neg hp]
  · show (appendAdj (appendAdj gB.corners g.nextCid gB.nextWid) (g.nextCid + 1)
        gB.nextWid).map (fun c => (c.cid, c.pos)) = _
    have hkeep : ∀ (cs : List CornerRec) (cid wid : ℕ),
        (appendAdj cs cid wid).map (fun c => (c.cid, c.pos)) =
          cs.map (fun c => (c.cid, c.pos)) := by
      intro cs cid wid
      simp only [appendAdj, List.map_map]
      refine List.map_congr_left ?_
      intro c _
      by_cases h : c.cid = cid <;> simp [h]
    rw [hkeep, hkeep]
    show ((g.corners ++ [A]) ++ [B]).map (fun c => (c.cid, c.pos)) = _
    simp [hA, hB]
  · exact ⟨w0, rfl, rfl, rfl, hne12⟩

/-- Chebyshev distance vanishes exactly on equal points. -/
theorem manhattan_eq_zero (a b : ℤ × ℤ) :
    manhattanDistanceBetween a b = 0 ↔ a = b := by
  constructor
  · intro h
    have h1 : |a.1 - b.1| ≤ 0 := le_of_le_of_eq (le_max_left _ _) h
    have h2 : |a.2 - b.2| ≤ 0 := le_of_le_of_eq (le_max_right _ _) h
    have e1 : a.1 = b.1 := by have := abs_nonpos_iff.mp h1; omega
    have e2 : a.2 = b.2 := by have := abs_nonpos_iff.mp h2; omega
    exact Prod.ext e1 e2
  · intro h
    simp [h, manhattanDistanceBetween]

/-- With distinct corner ids, `find?` by a member's id returns exactly that
member. -/
theorem find?_cid_of_nodup (cs : List CornerRec) (c : CornerRec)
    (hnd : (cs.map (fun x => x.cid)).Nodup) (hc : c ∈ cs) :
    cs.find? (fun x => x.cid = c.cid) = some c := by
  induction cs with
  | nil => exact absurd hc (by simp)
  | cons d t ih =>
    simp only [List.map_cons, List.nodup_cons] at hnd
    rcases List.mem_cons.mp hc with heq | htl
    · subst heq
      exact List.find?_cons_of_pos _ (by simp)
    · have hne : d.cid ≠ c.cid := by
        intro he
        exact hnd.1 (he ▸ List.mem_map.mpr ⟨c, htl, rfl⟩)
      rw [List.find?_cons_of_neg _ (by simp [hne]), ih hnd.2 htl]

/-- `find?` over an extended corner list still returns an already-found
member. -/
theorem find?_append_some (cs tail : List CornerRec)
    (p : CornerRec → Bool) (c : CornerRec) (h : cs.find? p = some c) :
    (cs ++ tail).find? p = some c := by
  induction cs with
  | nil => exact absurd h (by simp)
  | cons d t ih =>
    by_cases hd : p d = true
    · rw [List.find?_cons_of_pos _ hd] at h
      rw [List.cons_append, List.find?_cons_of_pos _ hd]
      exact h
    · rw [List.find?_cons_of_neg _ hd] at h
      rw [List.cons_append, List.find?_cons_of_neg _ hd]
      exact ih h

/-- The stable two-minimum fold returns `(0, i)` as the best entry whenever
the list contains a zero-distance entry, all zero-distance entries are
`(0, i)`, and all distances are nonnegative. -/
theorem selectTwo_zero (i : ℕ) :
    ∀ (l : List (ℤ × ℕ)) (acc : Option (ℤ × ℕ) × Option (ℤ × ℕ)),
      (∀ x ∈ l, 0 ≤ x.1 ∧ (x.1 = 0 → x = (0, i))) →
      (acc.1 = none ∨ ∃ b, acc.1 = some b ∧ 0 ≤ b.1 ∧ (b.1 = 0 → b = (0, i))) →
      ((∃ x ∈ l, x.1 = 0) ∨ acc.1 = some (0, i)) →
      (l.foldl selectStep acc).1 = some (0, i) := by
  intro l
  induction l with
  | nil =>
    intro acc _ _ hz
    rcases hz with ⟨x, hx, _⟩ | hz
    · exact absurd hx (by simp)
    · exact hz
  | cons a t ih =>
    intro acc hl hacc hz
    have ha := hl a (List.mem_cons.mpr (.inl rfl))
    obtain ⟨a1, a2⟩ := acc
    have hstep : ∃ b, (selectStep (a1, a2) a).1 = some b ∧ 0 ≤ b.1 ∧
        (b.1 = 0 → b = (0, i)) := by
      rcases hacc with hnone | ⟨b, hb, hbn, hbz⟩
      · simp only at hnone
        subst hnone
        exact ⟨a, rfl, ha.1, ha.2⟩
      · simp only at hb
        subst hb
        rcases a2 with _ | s
        · simp only [selectStep]
          by_cases hlt : a.1 < b.1
          · rw [if_pos hlt]
            exact ⟨a, rfl, ha.1, ha.2⟩
          · rw [if_neg hlt]
            exact ⟨b, rfl, hbn, hbz⟩
        · simp only [selectStep]
          by_cases hlt : a.1 < b.1
          · rw [if_pos hlt]
            exact ⟨a, rfl, ha.1, ha.2⟩
          · rw [if_neg hlt]
            by_cases hlt2 : a.1 < s.1
            · rw [if_pos hlt2]
              exact ⟨b, rfl, hbn, hbz⟩
            · rw [if_neg hlt2]
              exact ⟨b, rfl, hbn, hbz⟩
      
    rcases hstep with ⟨b, hb, hbn, hbz⟩
    refine ih (selectStep (a1, a2) a)
      (fun x hx => hl x (List.mem_cons.mpr (.inr hx)))
      (.inr ⟨b, hb, hbn, hbz⟩) ?_
    rcases hz with ⟨x, hx, hx0⟩ | hz
    · rcases List.mem_cons.mp hx with hxa | hxt
      · right
        subst hxa
        have hax : x = (0, i) := ha.2 hx0
        rcases hacc with hnone | ⟨b2, hb2, hb2n, hb2z⟩
        · simp only at hnone
          subst hnone
          simp only [selectStep]
          rw [hax]
        · simp only at hb2
          subst hb2
          rcases a2 with _ | s
          · simp only [selectStep]
            by_cases hlt : x.1 < b2.1
            · rw [if_pos hlt, hax]
            · rw [if_neg hlt]
              have : b2.1 = 0 := by omega
              rw [hb2z this]
          · simp only [selectStep]
            by_cases hlt : x.1 < b2.1
            · rw [if_pos hlt, hax]
            · rw [if_neg hlt]
              have hb20 : b2.1 = 0 := by omega
              by_cases hlt2 : x.1 < s.1
              · rw [if_pos hlt2, hb2z hb20]
              · rw [if_neg hlt2, hb2z hb20]
      · exact .inl ⟨x, hxt, hx0⟩
    · right
      rcases hacc with hnone | ⟨b2, hb2, _, _⟩
      · simp only at hnone
        rw [hnone] at hz
        exact absurd hz (by simp)
      · simp only at hb2
        rw [hb2] at hz
        have hb2v : b2 = (0, i) := Option.some.inj hz
        subst hb2
        subst hb2v
        rcases a2 with _ | s
        · simp only [selectStep]
          rw [if_neg (by omega : ¬ a.1 < (0 : ℤ))]
        · simp only [selectStep]
          rw [if_neg (by omega : ¬ a.1 < (0 : ℤ))]
          by_cases hlt2 : a.1 < s.1
          · rw [if_pos hlt2]
          · rw [if_neg hlt2]

/-- Best and second-best of the stable two-minimum fold occupy distinct
entries, so with distinct corner ids they name distinct corners. -/
theorem selectFold_distinct :
    ∀ (l : List (ℤ × ℕ)) (acc : Option (ℤ × ℕ) × Option (ℤ × ℕ)),
      (l.map (fun x => x.2)).Nodup →
      (∀ x, (acc.1 = some x ∨ acc.2 = some x) →
        x.2 ∉ l.map (fun y => y.2)) →
      (∀ b s, acc.1 = some b → acc.2 = some s → b.2 ≠ s.2) →
      ∀ b s, (l.foldl selectStep acc).1 = some b →
        (l.foldl selectStep acc).2 = some s → b.2 ≠ s.2 := by
  intro l
  induction l with
  | nil =>
    intro acc _ _ hpair b s hb hs
    exact hpair b s hb hs
  | cons a t ih =>
    intro acc hnd hdisj hpair b s hb hs
    simp only [List.map_cons, List.nodup_cons] at hnd
    have hcomp : ∀ x, ((selectStep acc a).1 = some x ∨
        (selectStep acc a).2 = some x) →
        x = a ∨ (acc.1 = some x ∨ acc.2 = some x) := by
      intro x hx
      obtain ⟨a1, a2⟩ := acc
      rcases a1 with _ | b1
      · simp only [selectStep] at hx
        rcases hx with hx | hx
        · exact .inl (Option.some.inj hx).symm
        · exact absurd hx (by simp)
      · rcases a2 with _ | s1
        · simp only [selectStep] at hx
          by_cases hlt : a.1 < b1.1
          · rw [if_pos hlt] at hx
            rcases hx with hx | hx
            · exact .inl (Option.some.inj hx).symm
            · exact .inr (.inl hx)
          · rw [if_neg hlt] at hx
            rcases hx with hx | hx
            · exact .inr (.inl hx)
            · exact .inl (Option.some.inj hx).symm
        · simp only [selectStep] at hx
          by_cases hlt : a.1 < b1.1
          · rw [if_pos hlt] at hx
            rcases hx with hx | hx
            · exact .inl (Option.some.inj hx).symm
            · exact .inr (.inl hx)
          · rw [if_neg hlt] at hx
            by_cases hlt2 : a.1 < s1.1
            · rw [if_pos hlt2] at hx
              rcases hx with hx | hx
              · exact .inr (.inl hx)
              · exact .inl (Option.some.inj hx).symm
            · rw [if_neg hlt2] at hx
              rcases hx with hx | hx
              · exact .inr (.inl hx)
              · exact .inr (.inr hx)
    refine ih (selectStep acc a) hnd.2 ?_ ?_ b s hb hs
    · intro x hx
      rcases hcomp x hx with hxa | hxacc
      · rw [hxa]
        exact hnd.1
      · intro hmem
        exact hdisj x hxacc (List.mem_cons.mpr (.inr hmem))
    · intro b1 s1 hb1 hs1
      obtain ⟨a1, a2⟩ := acc
      rcases a1 with _ | b0
      · simp only [selectStep] at hb1 hs1
        exact absurd hs1 (by simp)
      · have hba : b0.2 ≠ a.2 := by
          intro he
          exact hdisj b0 (.inl rfl)
            (by rw [he, List.map_cons]; exact List.mem_cons.mpr (.inl rfl))
        rcases a2 with _ | s0
        · simp only [selectStep] at hb1 hs1
          by_cases hlt : a.1 < b0.1
          · rw [if_pos hlt] at hb1 hs1
            rw [← Option.some.inj hb1, ← Option.some.inj hs1]
            exact fun he => hba he.symm
          · rw [if_neg hlt] at hb1 hs1
            rw [← Option.some.inj hb1, ← Option.some.inj hs1]
            exact hba
        · simp only [selectStep] at hb1 hs1
          by_cases hlt : a.1 < b0.1
          · rw [if_pos hlt] at hb1 hs1
            rw [← Option.some.inj hb1, ← Option.some.inj hs1]
            exact fun he => hba he.symm
          · rw [if_neg hlt] at hb1 hs1
            by_cases hlt2 : a.1 < s0.1
            · rw [if_pos hlt2] at hb1 hs1
              rw [← Option.some.inj hb1, ← Option.some.inj hs1]
              exact hba
            · rw [if_neg hlt2] at hb1 hs1
              exact hpair b1 s1 hb1 hs1

/-- The distance list inherits distinct corner ids from distinct dictionary
values (each entry's id is its dictionary value). -/
theorem distList_cid_nodup (g : Graph) (p : ℤ × ℤ)
    (h : (g.dict.map (fun e => e.2)).Nodup) :
    ((distList g p).map (fun x => x.2)).Nodup := by
  have hF : ∀ (e : (ℤ × ℤ) × ℕ) (x : ℤ × ℕ),
      ((getCorner g e.2).bind fun c =>
        let d := manhattanDistanceBetween c.pos p
        if intLtRat d g.tol then some (d, c.cid) else none) = some x →
      x.2 = e.2 := by
    intro e x hx
    rcases hc : getCorner g e.2 with _ | c <;> rw [hc] at hx
    · exact absurd hx (by simp)
    · simp only [Option.some_bind] at hx
      by_cases hlt : intLtRat (manhattanDistanceBetween c.pos p) g.tol = true
      · rw [if_pos hlt] at hx
        have hpred := List.find?_some hc
        have : c.cid = e.2 := by simpa using hpred
        rw [← Option.some.inj hx]
        exact this
      · rw [if_neg hlt] at hx
        exact absurd hx (by simp)
  have hsub : ∀ (d : List ((ℤ × ℤ) × ℕ)) (y : ℕ),
      y ∈ (d.filterMap fun e =>
        ((getCorner g e.2).bind fun c =>
          let dd := manhattanDistanceBetween c.pos p
          if intLtRat dd g.tol then some (dd, c.cid) else none)).map
            (fun x => x.2) →
      y ∈ d.map (fun e => e.2) := by
    intro d
    induction d with
    | nil => intro y hy; exact absurd hy (by simp)
    | cons e t ih =>
      intro y hy
      rw [List.filterMap_cons] at hy
      rcases hF2 : ((getCorner g e.2).bind fun c =>
          let dd := manhattanDistanceBetween c.pos p
          if intLtRat dd g.tol then some (dd, c.cid) else none) with _ | x <;>
        rw [hF2] at hy
      · exact List.mem_cons.mpr (.inr (ih y hy))
      · rw [List.map_cons] at hy
        rcases List.mem_cons.mp hy with hya | hyt
        · exact List.mem_cons.mpr (.inl (hya.trans (hF e x hF2)))
        · exact List.mem_cons.mpr (.inr (ih y hyt))
  have main : ∀ (d : List ((ℤ × ℤ) × ℕ)),
      (d.map (fun e => e.2)).Nodup →
      ((d.filterMap fun e =>
        ((getCorner g e.2).bind fun c =>
          let dd := manhattanDistanceBetween c.pos p
          if intLtRat dd g.tol then some (dd, c.cid) else none)).map
            (fun x => x.2)).Nodup := by
    intro d
    induction d with
    | nil => intro _; simp
    | cons e t ih =>
      intro hnd
      simp only [List.map_cons, List.nodup_cons] at hnd
      rw [List.filterMap_cons]
      rcases hF2 : ((getCorner g e.2).bind fun c =>
          let dd := manhattanDistanceBetween c.pos p
          if intLtRat dd g.tol then some (dd, c.cid) else none) with _ | x
      · exact ih hnd.2
      · rw [List.map_cons, List.nodup_cons]
        refine ⟨?_, ih hnd.2⟩
        intro hmem
        have := hsub t x.2 hmem
        rw [hF e x hF2] at this
        exact hnd.1 this
  exact main g.dict h

/-- When a corner (reachable through the dictionary) sits exactly at the
queried point, no other corner shares that position, and the tolerance is
positive, `find_closest` selects that very corner. -/
theorem findClosest_exact (g : Graph) (p1 : ℤ × ℤ) (c : CornerRec)
    (hndc : (g.corners.map (fun x => x.cid)).Nodup) (hc : c ∈ g.corners)
    (hdict : ∃ k, (k, c.cid) ∈ g.dict) (hpos : c.pos = p1)
    (huniq : ∀ x ∈ g.corners, x.pos = p1 → x = c)
    (htol : intLtRat 0 g.tol = true) :
    (findClosest g p1).1 = some c.cid := by
  have hprop : ∀ x ∈ distList g p1, 0 ≤ x.1 ∧ (x.1 = 0 → x = (0, c.cid)) := by
    intro x hx
    rcases distList_mem g p1 x hx with ⟨cx, hcx, hcid, hd, _⟩
    refine ⟨hd ▸ manhattanDistanceBetween_nonneg _ _, ?_⟩
    intro h0
    have hpx : cx.pos = p1 := (manhattan_eq_zero cx.pos p1).mp (by omega)
    have hce : cx = c := huniq cx hcx hpx
    have : x = (x.1, x.2) := rfl
    rw [this, h0, ← hcid, hce]
  have hzero : ∃ x ∈ distList g p1, x.1 = 0 := by
    rcases hdict with ⟨k, hk⟩
    have hfind : getCorner g c.cid = some c := find?_cid_of_nodup _ c hndc hc
    have hch : manhattanDistanceBetween c.pos p1 = 0 :=
      (manhattan_eq_zero c.pos p1).mpr hpos
    refine ⟨(0, c.cid), List.mem_filterMap.mpr ⟨(k, c.cid), hk, ?_⟩, rfl⟩
    rw [hfind, Option.some_bind]
    simp only [hch]
    rw [if_pos htol]
  have hsel := selectTwo_zero c.cid (distList g p1) (none, none) hprop
    (.inl rfl) (.inl hzero)
  show ((selectTwo (distList g p1)).1.map (fun e => e.2)) = some c.cid
  rw [show selectTwo (distList g p1) =
      (distList g p1).foldl selectStep (none, none) from rfl]
  rw [hsel]
  rfl

/-- C2 amended, part 3 (idempotence at exact positions): inserting a wall
endpoint that coincides exactly with an existing Corner's position (with no
duplicate-position corner, distinct corner ids and dictionary values, and a
positive tolerance) reuses that Corner — the new wall's first endpoint is
that very corner and no second Corner is created for it.  (Idempotence does
**not** extend to endpoints that were previously merged within a nonzero
distance: the same-corner tie-break can hand such an endpoint a fresh
Corner, as the counterexample shows.) -/
theorem add_wall_exact_idem (g : Graph) (p1 p2 : ℤ × ℤ) (l r : Option String)
    (c : CornerRec) (hndc : (g.corners.map (fun x => x.cid)).Nodup)
    (hndd : (g.dict.map (fun e => e.2)).Nodup) (hb : cidBound g)
    (hc : c ∈ g.corners) (hdict : ∃ k, (k, c.cid) ∈ g.dict)
    (hpos : c.pos = p1)
    (huniq : ∀ x ∈ g.corners, x.pos = p1 → x = c)
    (htol : intLtRat 0 g.tol = true) (hp : p1 ≠ p2) :
    ∃ g2 w, add_wall g p1 p2 l r = .ok g2 ∧ g2.walls = g.walls ++ [w] ∧
      w.c1 = c.cid := by
  have hn1 : (findClosest g p1).1 = some c.cid :=
    findClosest_exact g p1 c hndc hc hdict hpos huniq htol
  have hposc : posOfD g c.cid = p1 := by
    rw [posOfD, getCorner, find?_cid_of_nodup _ c hndc hc]
    exact hpos
  have hchpos : 0 < manhattanDistanceBetween p1 p2 := by
    have hne := manhattanDistanceBetween_nonneg p1 p2
    rcases lt_or_eq_of_le hne with h | h
    · exact h
    · exact absurd ((manhattan_eq_zero p1 p2).mp h.symm) hp
  have hfindc : ∀ tail, posOfD
      { dict := dictInsert g.dict p2 g.nextCid
        corners := g.corners ++ tail
        walls := g.walls
        nextCid := g.nextCid + 1
        nextWid := g.nextWid
        tol := g.tol } c.cid = p1 := by
    intro tail
    rw [posOfD, getCorner]
    show (((g.corners ++ tail).find? fun x =>
        x.cid = c.cid).map (fun x => x.pos)).getD (0, 0) = p1
    rw [find?_append_some g.corners _ _ c (find?_cid_of_nodup _ c hndc hc)]
    exact hpos
  have hfindf : posOfD
      { dict := dictInsert g.dict p2 g.nextCid
        corners := g.corners ++ [⟨g.nextCid, p2, []⟩]
        walls := g.walls
        nextCid := g.nextCid + 1
        nextWid := g.nextWid
        tol := g.tol } g.nextCid = p2 := by
    rw [posOfD, getCorner]
    show (((g.corners ++ [({ cid := g.nextCid, pos := p2, adj := [] } : CornerRec)]).find? fun x =>
        x.cid = g.nextCid).map (fun x => x.pos)).getD (0, 0) = p2
    rw [find?_cid_append g.corners _ g.nextCid
      (fun x hx => by have := hb x hx; omega)]
    rw [List.find?_cons_of_pos _ (by simp)]
    rfl
  have hnefresh : ¬ c.cid = g.nextCid := by have := hb c hc; omega
  simp only [add_wall, if_neg hp, hn1, resolveOpt]
  rcases hn2o : (findClosest g p2).1 with _ | n2
  · -- no candidate for p2: a fresh corner is created; no tie-break
    simp only [hn2o, freshCorner_eq, tieBreak, if_neg hnefresh]
    rw [hfindc, hfindf, if_neg hp]
    exact ⟨_, _, rfl, rfl, rfl⟩
  · by_cases hcn : c.cid = n2
    · -- both endpoints resolved to the same corner: tie-break keeps it for p1
      subst hcn
      have hlt : manhattanDistanceBetween (posOfD g c.cid) p1 <
          manhattanDistanceBetween (posOfD g c.cid) p2 := by
        rw [hposc, (manhattan_eq_zero p1 p1).mpr rfl]
        exact hchpos
      simp only [hn2o, tieBreak, eq_self_iff_true, if_true, if_pos rfl, if_pos hlt]
      rcases hb2 : (findClosest g p2).2 with _ | nb
      · -- no second closest either: fresh corner for p2
        simp only [hb2, freshCorner_eq]
        rw [hfindc, hfindf, if_neg hp]
        exact ⟨_, _, rfl, rfl, rfl⟩
      · -- second closest nb: a distinct corner, hence not at p1
        have hnb : nb ≠ c.cid := by
          have hmap1 : (selectTwo (distList g p2)).1.map (fun e => e.2) =
              some c.cid := hn2o
          have hmap2 : (selectTwo (distList g p2)).2.map (fun e => e.2) =
              some nb := hb2
          rcases Option.map_eq_some'.mp hmap1 with ⟨x1, hx1, hx1e⟩
          rcases Option.map_eq_some'.mp hmap2 with ⟨x2, hx2, hx2e⟩
          have hdist := selectFold_distinct (distList g p2) (none, none)
            (distList_cid_nodup g p2 hndd)
            (by intro x hx; rcases hx with hx | hx <;> exact absurd hx (by simp))
            (by intro b s hbb _; exact absurd hbb (by simp)) x1 x2 hx1 hx2
          intro he
          exact hdist (by rw [hx1e, hx2e, he])
        rcases findClosest_snd_spec g p2 nb hb2 with ⟨cnb, hcnb, hcid, _⟩
        have hne : cnb ≠ c := fun he => hnb (by rw [← hcid, he])
        have hpnb : posOfD g nb = cnb.pos := by
          rw [posOfD, getCorner, ← hcid, find?_cid_of_nodup _ cnb hndc hcnb]
          rfl
        have hnep : ¬ posOfD g c.cid = posOfD g nb := by
          rw [hposc, hpnb]
          exact fun he => hne (huniq cnb hcnb he.symm)
        rw [if_neg hnep]
        exact ⟨_, _, rfl, rfl, rfl⟩
    · -- distinct corners: no tie-break
      simp only [hn2o, tieBreak, if_neg hcn]
      rcases findClosest_fst_spec g p2 n2 hn2o with ⟨cn2, hcn2, hcid, _⟩
      have hne : cn2 ≠ c := fun he => hcn (by rw [← hcid, he])
      have hpn2 : posOfD g n2 = cn2.pos := by
        rw [posOfD, getCorner, ← hcid, find?_cid_of_nodup _ cn2 hndc hcn2]
        rfl
      have hnep : ¬ posOfD g c.cid = posOfD g n2 := by
        rw [hposc, hpn2]
        exact fun he => hne (huniq cn2 hcn2 he.symm)
      rw [if_neg hnep]
      exact ⟨_, _, rfl, rfl, rfl⟩

/-- C2 counterexample: the merge metric is Chebyshev (max of coordinate
differences), not Manhattan (L1), and merge idempotence fails.  (i) With
tolerance 3, the endpoints `(2,2)` and `(102,2)` are merged into the
existing corners `(0,0)` and `(100,0)` although their L1 distance from
them is 4, which is not within the tolerance.  (ii) Inserting the endpoint
`(2,0)` twice, both times within tolerance of corner 0 at `(0,0)`, creates
two distinct Corners for it: the first insertion reuses corner 0, the
second (after the same-corner tie-break discards the closest candidate and
no second-closest exists) creates the fresh corner 3 at `(2,0)`. -/
theorem c2_counterexample :
    (((do
          let g1 ← add_wall (emptyWallGraph (3, 1)) (0, 0) (100, 0) none none
          add_wall g1 (2, 2) (102, 2) none none :
        Except String Graph).toOption.map
          (fun g => (g.corners.length, g.walls.map fun w => (w.c1, w.c2)))) =
        some (2, [(0, 1), (0, 1)]) ∧
      intLtRat (l1Dist (0, 0) (2, 2)) (3, 1) = false ∧
      intLtRat (l1Dist (100, 0) (102, 2)) (3, 1) = false) ∧
    ((do
        let g1 ← add_wall (emptyWallGraph (3, 1)) (0, 0) (100, 0) none none
        let g2 ← add_wall g1 (2, 0) (50, 50) none none
        add_wall g2 (2, 0) (1, 0) none none :
      Except String Graph).toOption.map
        (fun g => (g.corners.map (fun c => (c.cid, c.pos)),
          g.walls.map fun w => (w.c1, w.c2))) =
      some ([(0, (0, 0)), (1, (100, 0)), (2, (50, 50)), (3, (2, 0))],
        [(0, 1), (0, 2), (3, 0)]) ∧
      intLtRat (manhattanDistanceBetween (0, 0) (2, 0)) (3, 1) = true) := by
  decide

/-- C2 amended: `add_wall` resolves raw endpoints against existing Corners
under the *Chebyshev* metric (`manhattan_distance_between` is
`max(|dx|, |dy|)`), and the merge guarantees are: (1) soundness — each
endpoint Corner of the appended wall is strictly within
`tolerance_distance` of the raw endpoint in the Chebyshev metric or sits
exactly at it; (2) separation — endpoints at Chebyshev distance at least
the tolerance from every corner and from each other always get two
distinct fresh Corners; (3) idempotence holds only for *exact* repeats —
an endpoint coinciding exactly with a unique existing Corner's position
reuses that Corner.  (Idempotence for merely-within-tolerance repeats is
false: see the counterexample.) -/
theorem c2_amended :
    (∀ (g : Graph) (p1 p2 : ℤ × ℤ) (l r : Option String) (g2 : Graph),
      p1 ≠ p2 → add_wall g p1 p2 l r = .ok g2 →
      ∃ w, g2.walls = g.walls ++ [w] ∧
        (∃ c ∈ g2.corners, c.cid = w.c1 ∧
          (intLtRat (manhattanDistanceBetween c.pos p1) g.tol = true ∨
            c.pos = p1)) ∧
        (∃ c ∈ g2.corners, c.cid = w.c2 ∧
          (intLtRat (manhattanDistanceBetween c.pos p2) g.tol = true ∨
            c.pos = p2))) ∧
    (∀ (g : Graph) (p1 p2 : ℤ × ℤ) (l r : Option String),
      cidBound g →
      (∀ c ∈ g.corners,
        ¬ intLtRat (manhattanDistanceBetween c.pos p1) g.tol = true) →
      (∀ c ∈ g.corners,
        ¬ intLtRat (manhattanDistanceBetween c.pos p2) g.tol = true) →
      ¬ intLtRat (manhattanDistanceBetween p1 p2) g.tol = true →
      p1 ≠ p2 →
      ∃ g2, add_wall g p1 p2 l r = .ok g2 ∧
        g2.corners.map (fun c => (c.cid, c.pos)) =
          g.corners.map (fun c => (c.cid, c.pos)) ++
            [(g.nextCid, p1), (g.nextCid + 1, p2)] ∧
        ∃ w, g2.walls = g.walls ++ [w] ∧ w.c1 = g.nextCid ∧
          w.c2 = g.nextCid + 1 ∧ w.c1 ≠ w.c2) ∧
    (∀ (g : Graph) (p1 p2 : ℤ × ℤ) (l r : Option String) (c : CornerRec),
      (g.corners.map (fun x => x.cid)).Nodup →
      (g.dict.map (fun e => e.2)).Nodup →
      cidBound g → c ∈ g.corners → (∃ k, (k, c.cid) ∈ g.dict) →
      c.pos = p1 → (∀ x ∈ g.corners, x.pos = p1 → x = c) →
      intLtRat 0 g.tol = true → p1 ≠ p2 →
      ∃ g2 w, add_wall g p1 p2 l r = .ok g2 ∧
        g2.walls = g.walls ++ [w] ∧ w.c1 = c.cid) :=
  ⟨fun g p1 p2 l r g2 hp hok => add_wall_sound g p1 p2 l r g2 hp hok,
   fun g p1 p2 l r hb h1 h2 h12 hp =>
     add_wall_separate g p1 p2 l r hb h1 h2 h12 hp,
   fun g p1 p2 l r c hndc hndd hb hc hdict hpos huniq htol hp =>
     add_wall_exact_idem g p1 p2 l r c hndc hndd hb hc hdict hpos huniq
       htol hp⟩

/-- Concrete instantiations of the three parts of the amended C2 statement:
(1) soundness on the empty graph producing `oneWallGraph`; (2) separation
for far-away endpoints added to `oneWallGraph`; (3) exact-repeat
idempotence for the endpoint `(0,0)` of `oneWallGraph`'s corner 0. -/
theorem c2_amended_witness :
    (∃ w, oneWallGraph.walls = (emptyWallGraph (3, 1)).walls ++ [w] ∧
      (∃ c ∈ oneWallGraph.corners, c.cid = w.c1 ∧
        (intLtRat (manhattanDistanceBetween c.pos (0, 0))
            (emptyWallGraph (3, 1)).tol = true ∨ c.pos = (0, 0))) ∧
      (∃ c ∈ oneWallGraph.corners, c.cid = w.c2 ∧
        (intLtRat (manhattanDistanceBetween c.pos (10, 0))
            (emptyWallGraph (3, 1)).tol = true ∨ c.pos = (10, 0)))) ∧
    (∃ g2, add_wall oneWallGraph (100, 100) (200, 100) none none = .ok g2 ∧
      g2.corners.map (fun c => (c.cid, c.pos)) =
        oneWallGraph.corners.map (fun c => (c.cid, c.pos)) ++
          [(oneWallGraph.nextCid, (100, 100)),
            (oneWallGraph.nextCid + 1, (200, 100))] ∧
      ∃ w, g2.walls = oneWallGraph.walls ++ [w] ∧
        w.c1 = oneWallGraph.nextCid ∧ w.c2 = oneWallGraph.nextCid + 1 ∧
        w.c1 ≠ w.c2) ∧
    (∃ g2 w, add_wall oneWallGraph (0, 0) (30, 0) none none = .ok g2 ∧
      g2.walls = oneWallGraph.walls ++ [w] ∧ w.c1 = 0) :=
  ⟨c2_amended.1 (emptyWallGraph (3, 1)) (0, 0) (10, 0) none none
      oneWallGraph (by decide) (by decide),
   c2_amended.2.1 oneWallGraph (100, 100) (200, 100) none none
      ((by decide : ∀ c ∈ oneWallGraph.corners, c.cid < oneWallGraph.nextCid))
      (by decide) (by decide) (by decide) (by decide),
   c2_amended.2.2 oneWallGraph (0, 0) (30, 0) none none ⟨0, (0, 0), [0]⟩
      (by decide) (by decide)
      ((by decide : ∀ c ∈ oneWallGraph.corners, c.cid < oneWallGraph.nextCid))
      (by decide)
      ⟨((0 : ℤ), (0 : ℤ)), by decide⟩ rfl (by decide) (by decide)
      (by decide)⟩
